import Mathlib

/-
Verification development for the MAL-sampler repository.

The Python sources (probability_distribution.py, asset.py, model.py) are
shallowly embedded below.  Python dicts become association lists
(`List (Key × Value)`, insertion ordered, first match wins, like dicts),
Python sets of assets become lists of asset identifiers without duplicates,
and the object heap becomes an association list from identifiers to `Asset`
records (append-only: `Model.remove` clears an asset and drops it from the
per-type collection, mirroring the Python object that only garbage-collects
once unreferenced).  All randomness (scipy binomial draws, `random.choice`)
is externalised into oracle functions, so every theorem quantifies over all
possible random outcomes.
-/

namespace MalSampler

/-! ### Association-list helpers (Python dict operations) -/

def alook {K V : Type} [DecidableEq K] : List (K × V) → K → Option V
  | [], _ => none
  | (k', v) :: rest, k => if k' = k then some v else alook rest k

/-- Update the value stored at key `k` in place (Python `d[k] = f(d[k])`). -/
def aupd {K V : Type} [DecidableEq K] : List (K × V) → K → (V → V) →
    List (K × V)
  | [], _, _ => []
  | (k', v) :: rest, k, f =>
    if k' = k then (k', f v) :: aupd rest k f else (k', v) :: aupd rest k f

/-- Insert a default value at the end when the key is absent
(Python `if k not in d: d[k] = v0`). -/
def ensureKey {K V : Type} [DecidableEq K] (l : List (K × V)) (k : K)
    (v0 : V) : List (K × V) :=
  match alook l k with
  | some _ => l
  | none => l ++ [(k, v0)]

/-- Python `set.add`: a no-op when the element is already present. -/
def insertNew (x : Nat) (l : List Nat) : List Nat :=
  if x ∈ l then l else l ++ [x]

/-! ### probability_distribution.py -/

/-- The tag of a distribution dictionary (`'Binomial'`, `'Constant'`,
`'BinomialPlusOne'`). -/
inductive DistKind : Type where
  | Binomial : DistKind
  | Constant : DistKind
  | BinomialPlusOne : DistKind
deriving DecidableEq

/-- A distribution dictionary: the tag together with the `n` parameter.  The
`p` parameter is consumed only by scipy's binomial sampler, which is external
randomness; it is therefore absorbed into the draw oracle below. -/
structure DistSpec : Type where
  kind : DistKind
  n : Nat
deriving DecidableEq

/-- `ProbabilityDistribution.sample`: a binomial draw is external randomness,
supplied as `draw`; `Constant` ignores it and returns `n`;
`BinomialPlusOne` adds one to the draw. -/
def DistSpec.sampleWith (d : DistSpec) (draw : Nat) : Nat :=
  match d.kind with
  | DistKind.Binomial => draw
  | DistKind.Constant => d.n
  | DistKind.BinomialPlusOne => draw + 1

/-- The committed fields of a constructed `ProbabilityDistribution`. -/
structure ProbabilityDistribution : Type where
  value : Nat
  low : Nat
  high : Nat
deriving DecidableEq

/-- `ProbabilityDistribution.__init__`: draw `nSamples` samples (the `i`-th
uses the external draw `draws i`), sort them, and commit
`value := samples[0]`, `low := sorted[0]`, `high := sorted[-1]`.  With
`nSamples = 0` the Python code raises `IndexError` on `samples[0]`, hence
`none`.  `min`/`max` of the list replace indexing into the sorted copy. -/
def mkProbabilityDistribution (d : DistSpec) (draws : Nat → Nat)
    (nSamples : Nat) : Option ProbabilityDistribution :=
  match (List.range nSamples).map (fun i => d.sampleWith (draws i)) with
  | [] => none
  | s0 :: rest =>
    some { value := s0,
           low := rest.foldl min s0,
           high := rest.foldl max s0 }

/-- Modelled from the spec: the construction the specification describes for
`ProbabilityDistribution.__init__` — one committed `value` sample drawn
first, then `nSamples` further independent samples whose minimum and maximum
become `low` and `high`.  (The code under src/ instead takes `value` from
the same sample list that produces the bounds; this definition exists only
to be compared against `mkProbabilityDistribution`.) -/
def mkProbabilityDistributionSpec (d : DistSpec) (draws : Nat → Nat)
    (nSamples : Nat) : Option ProbabilityDistribution :=
  match (List.range nSamples).map (fun i => d.sampleWith (draws (i + 1))) with
  | [] => none
  | b0 :: rest =>
    some { value := d.sampleWith (draws 0),
           low := rest.foldl min b0,
           high := rest.foldl max b0 }

/-! ### asset.py -/

abbrev TypeName := String

/-- An `Asset` object.  Realized neighbour references are asset identifiers
into the model's heap. -/
structure Asset : Type where
  name : String
  asset_type_name : TypeName
  n_associated_assets : List (TypeName × ProbabilityDistribution)
  associated_assets : List (TypeName × List Nat)
  generation_completed : Bool
deriving DecidableEq

/-- `Asset.__init__`: one target distribution per declared neighbour type
(the freshly constructed `ProbabilityDistribution`s are supplied, having
consumed external randomness), and an empty realized set per declared
neighbour type. -/
def Asset.make (name : String) (asset_type_name : TypeName)
    (targetDists : List (TypeName × ProbabilityDistribution)) : Asset :=
  { name := name,
    asset_type_name := asset_type_name,
    n_associated_assets := targetDists,
    associated_assets := targetDists.map (fun p => (p.1, [])),
    generation_completed := false }

/-- `self.associated_assets[t]`.  The key is present whenever `t` is a
declared neighbour type (constructor invariant), so the missing-key default
`[]` is never reached on the paths the code executes. -/
def Asset.setFor (a : Asset) (t : TypeName) : List Nat :=
  (alook a.associated_assets t).getD []

/-- `Asset.accepts`: `False` for an undeclared neighbour type; otherwise the
realized count is compared against `value` (normal mode) or `high`
(force mode). -/
def Asset.accepts (a : Asset) (asset_type : TypeName) (force_accept : Bool) :
    Bool :=
  match alook a.n_associated_assets asset_type with
  | none => false
  | some dist =>
    if !force_accept then decide ((a.setFor asset_type).length < dist.value)
    else decide ((a.setFor asset_type).length < dist.high)

/-! ### model.py : state and read-only operations -/

/-- One metamodel entry: `abbreviation`, the optional population distribution
spec `n`, and the per-neighbour-type association distribution specs. -/
structure TypeSpec : Type where
  abbreviation : String
  nSpec : Option DistSpec
  associated_assets : List (TypeName × DistSpec)
deriving DecidableEq

abbrev Metamodel := List (TypeName × TypeSpec)

/-- The `Model` object.  `heap` maps asset identifiers to `Asset` objects;
`assets` holds the per-type sets of (identifiers of) live assets;
`nextId` is the next fresh identifier. -/
structure Model : Type where
  metamodel : Metamodel
  n_assets : List (TypeName × ProbabilityDistribution)
  assets : List (TypeName × List Nat)
  heap : List (Nat × Asset)
  nextId : Nat
deriving DecidableEq

/-- `sys.maxsize` on a 64-bit platform. -/
def maxsize : Nat := 2 ^ 63 - 1

/-- `Model.__init__`: for each metamodel type, a population distribution —
freshly constructed from the declared `n` spec (randomness external, so the
committed triple is supplied by `npds`) or the deterministic
`Constant(sys.maxsize)` — and an empty asset set. -/
def Model.init (mm : Metamodel) (npds : TypeName → ProbabilityDistribution) :
    Model :=
  { metamodel := mm,
    n_assets := mm.map (fun p => (p.1,
      match p.2.nSpec with
      | some _ => npds p.1
      | none => { value := maxsize, low := maxsize, high := maxsize })),
    assets := mm.map (fun p => (p.1, [])),
    heap := [],
    nextId := 0 }

def Model.lookupAsset (m : Model) (aid : Nat) : Option Asset :=
  alook m.heap aid

/-- In-place mutation of the object an identifier refers to. -/
def Model.heapModify (m : Model) (aid : Nat) (f : Asset → Asset) : Model :=
  { m with heap := aupd m.heap aid f }

/-- `Model.all_assets`: every live asset, per-type sets concatenated. -/
def Model.all_assets (m : Model) : List Nat :=
  m.assets.flatMap (fun p => p.2)

/-- `Model.incompletely_associated_assets`. -/
def Model.incompletely_associated_assets (m : Model) : List Nat :=
  m.all_assets.filter (fun aid =>
    match m.lookupAsset aid with
    | some a => !a.generation_completed
    | none => false)

/-- `self.n_assets[t].value` (the population cap target for type `t`).
Every type reached by the generation loop is a metamodel key, so the
missing-key default is never consulted on executed paths. -/
def Model.capValue (m : Model) (t : TypeName) : Nat :=
  ((alook m.n_assets t).getD { value := 0, low := 0, high := 0 }).value

/-- `Model.available_targets`: live assets of the requested type that accept
the source's type (with the given force flag) and are not already associated
with the source; when source and target type coincide the source itself is
filtered out. -/
def Model.available_targets (m : Model) (sid : Nat)
    (target_asset_type : TypeName) (force_associate : Bool) : List Nat :=
  match m.lookupAsset sid with
  | none => []
  | some s =>
    let pool := (alook m.assets target_asset_type).getD []
    let avail := pool.filter (fun aid =>
      match m.lookupAsset aid with
      | some a =>
        a.accepts s.asset_type_name force_associate
          && !(decide (aid ∈ s.setFor target_asset_type))
      | none => false)
    if target_asset_type = s.asset_type_name then
      avail.filter (fun aid => decide (aid ≠ sid))
    else avail

/-- `Model.check_consistency`: an asset is appended once per neighbour type
whose realized count lies outside `[low, high]`. -/
def Model.check_consistency (m : Model) : List Nat :=
  m.all_assets.flatMap (fun aid =>
    match m.lookupAsset aid with
    | none => []
    | some a =>
      a.n_associated_assets.flatMap (fun p =>
        if (a.setFor p.1).length < p.2.low ∨ p.2.high < (a.setFor p.1).length
        then [aid] else []))

/-! ### model.py : mutating operations -/

/-- `Model.add`: raises `ValueError` on an unknown type; otherwise creates an
asset named abbreviation + current count of the type, inserts it into the
type's set, and returns it.  `pds` supplies the freshly sampled target
distributions of the new asset (external randomness). -/
def Model.add (m : Model) (asset_type : TypeName)
    (pds : TypeName → ProbabilityDistribution) :
    Except String (Model × Nat) :=
  match alook m.metamodel asset_type with
  | some spec =>
    let count := ((alook m.assets asset_type).getD []).length
    let a := Asset.make (spec.abbreviation ++ Nat.repr count) asset_type
      (spec.associated_assets.map (fun p => (p.1, pds p.1)))
    let aid := m.nextId
    Except.ok ({ m with
      heap := m.heap ++ [(aid, a)],
      assets := aupd m.assets asset_type (insertNew aid),
      nextId := aid + 1 }, aid)
  | none => Except.error ("Unknown asset type: " ++ asset_type)

/-- `Asset.associate` (heap-level): raises `KeyError` when the source has no
realized-set entry for the target's type, before any mutation; otherwise
adds the target to the source's set and — creating the reciprocal entry on
demand — the source to the target's set. -/
def Model.associate (m : Model) (sid tid : Nat) : Except String Model :=
  match m.lookupAsset sid, m.lookupAsset tid with
  | some s, some t =>
    match alook s.associated_assets t.asset_type_name with
    | none => Except.error "KeyError: associated_assets"
    | some _ =>
      let m1 := m.heapModify sid (fun a =>
        { a with
          associated_assets :=
            aupd a.associated_assets t.asset_type_name (insertNew tid) })
      let m2 := m1.heapModify tid (fun a =>
        { a with
          associated_assets :=
            aupd (ensureKey a.associated_assets s.asset_type_name [])
              s.asset_type_name (insertNew sid) })
      Except.ok m2
  | _, _ => Except.error "dangling asset reference"

/-- `Asset.disassociate_all` (heap-level): remove this asset from every
neighbour's reciprocal set, then clear its own association dict. -/
def Model.disassociate_all (m : Model) (aid : Nat) : Model :=
  match m.lookupAsset aid with
  | none => m
  | some a =>
    let m1 := a.associated_assets.foldl (fun acc p =>
      p.2.foldl (fun acc2 tid =>
        acc2.heapModify tid (fun t =>
          { t with
            associated_assets :=
              aupd t.associated_assets a.asset_type_name
                (fun s => s.erase aid) })) acc) m
    m1.heapModify aid (fun t => { t with associated_assets := [] })

/-- `Model.remove`: fully disassociate, then drop from the per-type set. -/
def Model.remove (m : Model) (aid : Nat) : Model :=
  match m.lookupAsset aid with
  | none => m
  | some a =>
    let m1 := m.disassociate_all aid
    { m1 with assets := aupd m1.assets a.asset_type_name (fun l => l.erase aid) }

/-- The external randomness consumed by the generation algorithm:
`choice i` resolves the `i`-th `random.choice` call (reduced modulo the
list length), and `pds aid` supplies the target distributions drawn for the
asset created with identifier `aid`. -/
structure Oracle : Type where
  choice : Nat → Nat
  pds : Nat → TypeName → ProbabilityDistribution

/-- The target-selection step of one iteration of the inner association
loop: a uniformly random available target if any exists; otherwise, when
the population target for the neighbour type is not yet reached and force
mode is off, a freshly created asset (`Model.add`); otherwise nothing
(`break`). -/
def Model.pickTarget (o : Oracle) (sid : Nat) (t : TypeName)
    (force_associate : Bool) (step : Nat) (m : Model) :
    Option (Model × Nat) :=
  let avail := m.available_targets sid t force_associate
  if h : 0 < avail.length then
    some (m, avail.get ⟨o.choice step % avail.length, Nat.mod_lt _ h⟩)
  else if ((alook m.assets t).getD []).length < m.capValue t then
    if force_associate then none
    else
      match m.add t (o.pds m.nextId) with
      | Except.ok r => some r
      | Except.error _ => none
  else none

/-- One run of the inner `while source_asset.accepts(target_asset_type)` loop
of `Model.complete_associations`, with explicit fuel.  Returns the new
model, the next `random.choice` index, and whether the loop finished on its
own (`false` only when the fuel ran out first). -/
def Model.completeTypeAux (o : Oracle) (sid : Nat) (t : TypeName)
    (force_associate : Bool) : Nat → Nat → Model → Model × Nat × Bool
  | 0, step, m => (m, step, false)
  | fuel + 1, step, m =>
    match m.lookupAsset sid with
    | none => (m, step, true)
    | some s =>
      if s.accepts t false then
        match Model.pickTarget o sid t force_associate step m with
        | some (m', tid) =>
          match m'.associate sid tid with
          | Except.ok m'' =>
            Model.completeTypeAux o sid t force_associate fuel (step + 1) m''
          | Except.error _ => (m', step, true)
        | none => (m, step, true)
      else (m, step, true)

/-- The inner loop with sufficient fuel: each iteration that continues
raises the source's realized count for `t` by one, and the loop condition
requires that count to stay below the (fixed) target `value`, so
`value + 1` iterations always reach the exit. -/
def Model.completeType (o : Oracle) (sid : Nat) (t : TypeName)
    (force_associate : Bool) (step : Nat) (m : Model) : Model × Nat :=
  let fuel :=
    match m.lookupAsset sid with
    | some s =>
      ((alook s.n_associated_assets t).getD
        { value := 0, low := 0, high := 0 }).value + 1
    | none => 1
  let r := Model.completeTypeAux o sid t force_associate fuel step m
  (r.1, r.2.1)

/-- `Model.complete_associations`: run the association loop for every
declared neighbour type of the source, then set `generation_completed`. -/
def Model.complete_associations (o : Oracle) (sid : Nat)
    (force_associate : Bool) (step : Nat) (m : Model) : Model × Nat :=
  match m.lookupAsset sid with
  | none => (m, step)
  | some s =>
    let r := (s.n_associated_assets.map (fun p => p.1)).foldl
      (fun acc t => Model.completeType o sid t force_associate acc.2 acc.1)
      (m, step)
    (r.1.heapModify sid (fun a => { a with generation_completed := true }),
     r.2)

/-- `Model.select_initial_asset_type`: a uniformly random metamodel key
(`random.choice` raises on an empty list, hence `none`). -/
def Model.select_initial_asset_type (o : Oracle) (step : Nat) (m : Model) :
    Option TypeName :=
  let keys := m.metamodel.map (fun p => p.1)
  if h : 0 < keys.length then
    some (keys.get ⟨o.choice step % keys.length, Nat.mod_lt _ h⟩)
  else none

/-- The `while self.incompletely_associated_assets()` loop of
`Model.sample`, with explicit fuel (`none` when the fuel runs out before
every asset is complete). -/
def Model.sampleAux (o : Oracle) : Nat → Nat → Model → Option (Model × Nat)
  | 0, _, _ => none
  | fuel + 1, step, m =>
    let inc := m.incompletely_associated_assets
    if h : 0 < inc.length then
      let aid := inc.get ⟨o.choice step % inc.length, Nat.mod_lt _ h⟩
      let r := Model.complete_associations o aid false (step + 1) m
      Model.sampleAux o fuel r.2 r.1
    else some (m, step)

/-- `Model.sample`: add one asset of a randomly selected initial type
(unguarded by the population cap), complete its associations, then keep
completing a random incomplete asset until none remains. -/
def Model.sample (o : Oracle) (fuel step : Nat) (m : Model) :
    Option (Model × Nat) :=
  match m.select_initial_asset_type o step with
  | none => none
  | some t0 =>
    match m.add t0 (o.pds m.nextId) with
    | Except.error _ => none
    | Except.ok (m1, aid) =>
      let r := Model.complete_associations o aid false (step + 1) m1
      Model.sampleAux o fuel r.2 r.1

/-- The result of `Model.resolve_inconsistency`: the final model, the next
`random.choice` index, the number of executed repair passes, and whether
the `counter > N_INCONSISTENCY_RESOLUTION_ATTEMPTS` failure report fired. -/
structure ResolveResult : Type where
  model : Model
  nextStep : Nat
  passes : Nat
  failed : Bool

/-- One pass of the repair loop: force-complete every currently inconsistent
asset, re-check, remove every asset still inconsistent. -/
def Model.repairPass (o : Oracle) (incons : List Nat) (step : Nat)
    (m : Model) : Model × Nat :=
  let r1 := incons.foldl
    (fun acc aid => Model.complete_associations o aid true acc.2 acc.1)
    (m, step)
  let inc2 := r1.1.check_consistency
  let m2 := inc2.foldl (fun acc aid => Model.remove acc aid) r1.1
  (m2, r1.2)

/-- The `while inconsistent_assets` loop of `Model.resolve_inconsistency`,
structurally bounded by the remaining attempts: when the budget is spent the
pass still runs once more (`counter` has become `attempts + 1`) and the
failure report fires. -/
def Model.resolveAux (o : Oracle) : Nat → Nat → Model → ResolveResult
  | 0, step, m =>
    if m.check_consistency = [] then
      { model := m, nextStep := step, passes := 0, failed := false }
    else
      let r := Model.repairPass o m.check_consistency step m
      { model := r.1, nextStep := r.2, passes := 1, failed := true }
  | remaining + 1, step, m =>
    if m.check_consistency = [] then
      { model := m, nextStep := step, passes := 0, failed := false }
    else
      let r := Model.repairPass o m.check_consistency step m
      let r2 := Model.resolveAux o remaining r.2 r.1
      { model := r2.model, nextStep := r2.nextStep,
        passes := r2.passes + 1, failed := r2.failed }

/-- `Model.resolve_inconsistency` with attempt bound `attempts`
(`N_INCONSISTENCY_RESOLUTION_ATTEMPTS`). -/
def Model.resolve_inconsistency (o : Oracle) (attempts step : Nat)
    (m : Model) : ResolveResult :=
  Model.resolveAux o attempts step m

/-! ### Structural invariants and reachability -/

/-- The number of live assets of a type. -/
def Model.countLive (m : Model) (t : TypeName) : Nat :=
  ((alook m.assets t).getD []).length

/-- Well-formedness of a metamodel value: being Python dicts, neither the
type table nor any type's `associated_assets` table can carry a duplicate
key. -/
structure MetamodelWF (mm : Metamodel) : Prop where
  keysNodup : (mm.map (fun p => p.1)).Nodup
  assocKeysNodup : ∀ p ∈ mm,
    (p.2.associated_assets.map (fun q => q.1)).Nodup

/-- The structural well-formedness invariant of a model: heap identifiers
are exactly `0, …, nextId - 1` in order; the per-type sets exist for exactly
the metamodel types, hold no duplicates and only assets of that type; the
realized sets hold no duplicates, only assets of the keyed type, never their
owner, and are symmetric; every dictionary (a Python dict in the source)
has pairwise distinct keys. -/
structure Inv (m : Model) : Prop where
  mmWF : MetamodelWF m.metamodel
  heapIds : m.heap.map (fun p => p.1) = List.range m.nextId
  assetsKeys : m.assets.map (fun p => p.1) = m.metamodel.map (fun p => p.1)
  assocKeysNodup : ∀ aid a, m.lookupAsset aid = some a →
    (a.associated_assets.map (fun p => p.1)).Nodup
  poolNodup : ∀ t l, alook m.assets t = some l → l.Nodup
  poolType : ∀ t l aid, alook m.assets t = some l → aid ∈ l →
    ∃ a, m.lookupAsset aid = some a ∧ a.asset_type_name = t
  setNodup : ∀ aid a t, m.lookupAsset aid = some a → (a.setFor t).Nodup
  setType : ∀ aid a t bid, m.lookupAsset aid = some a → bid ∈ a.setFor t →
    ∃ b, m.lookupAsset bid = some b ∧ b.asset_type_name = t
  symm : ∀ aid bid a b, m.lookupAsset aid = some a →
    m.lookupAsset bid = some b →
    (bid ∈ a.setFor b.asset_type_name ↔ aid ∈ b.setFor a.asset_type_name)
  noSelf : ∀ aid a t, m.lookupAsset aid = some a → aid ∉ a.setFor t

/-- Model states reachable through the `Model` operations, from a freshly
constructed model, under every possible random outcome. -/
inductive Reachable : Model → Prop where
  | init (mm : Metamodel) (npds : TypeName → ProbabilityDistribution) :
      MetamodelWF mm → Reachable (Model.init mm npds)
  | add {m m' : Model} {aid : Nat} (t : TypeName)
      (pds : TypeName → ProbabilityDistribution) : Reachable m →
      m.add t pds = Except.ok (m', aid) → Reachable m'
  | complete {m : Model} (o : Oracle) (sid : Nat) (force : Bool)
      (step : Nat) : Reachable m →
      Reachable (Model.complete_associations o sid force step m).1
  | sample {m m' : Model} {st : Nat} (o : Oracle) (fuel step : Nat) :
      Reachable m → Model.sample o fuel step m = some (m', st) →
      Reachable m'
  | remove {m : Model} (aid : Nat) : Reachable m → Reachable (m.remove aid)
  | resolve {m : Model} (o : Oracle) (attempts step : Nat) : Reachable m →
      Reachable (Model.resolve_inconsistency o attempts step m).model

/-- Model states reachable through `Model.add` alone (no removal). -/
inductive AddReachable : Model → Prop where
  | init (mm : Metamodel) (npds : TypeName → ProbabilityDistribution) :
      MetamodelWF mm → AddReachable (Model.init mm npds)
  | add {m m' : Model} {aid : Nat} (t : TypeName)
      (pds : TypeName → ProbabilityDistribution) : AddReachable m →
      m.add t pds = Except.ok (m', aid) → AddReachable m'

/-- Names invariant for add-only runs: every live asset appears in its
type's pool, and the asset at index `i` of type `t`'s pool is named
`abbreviation ++ str(i)` — the name committed when it was the `i`-th
addition of its type. -/
structure NamesInv (m : Model) : Prop where
  complete : ∀ aid a, m.lookupAsset aid = some a →
    ∃ l, alook m.assets a.asset_type_name = some l ∧ aid ∈ l
  named : ∀ t l, alook m.assets t = some l →
    ∀ i (hi : i < l.length), ∀ a, m.lookupAsset l[i] = some a →
    ∃ spec, alook m.metamodel t = some spec ∧
      a.name = spec.abbreviation ++ Nat.repr i

/-! ### Decimal digits, for reasoning about `Nat.repr` asset names -/

/-- The numeric value of a decimal digit string, for inverting
`Nat.toDigits`. -/
def valDigits (l : List Char) : Nat :=
  l.foldl (fun acc c => 10 * acc + (c.toNat - 48)) 0

/-! ### Concrete example models used by witnesses and counterexamples -/

/-- A `Constant(1)` distribution dictionary. -/
def exSpec : DistSpec := { kind := DistKind.Constant, n := 1 }

/-- Two mutually associated asset types, neither population-capped. -/
def mmPair : Metamodel :=
  [("A", { abbreviation := "a", nSpec := none,
           associated_assets := [("B", exSpec)] }),
   ("B", { abbreviation := "b", nSpec := none,
           associated_assets := [("A", exSpec)] })]

/-- A deterministic oracle: every `random.choice` resolves to index 0; the
first created asset targets one `B` (value 1, acceptance band up to 3),
every later asset targets two `A`s (band up to 2). -/
def oracle0 : Oracle :=
  { choice := fun _ => 0,
    pds := fun aid _ =>
      if aid = 0 then { value := 1, low := 0, high := 3 }
      else { value := 2, low := 0, high := 2 } }

def pairM0 : Model :=
  Model.init mmPair (fun _ => { value := 5, low := 5, high := 5 })

def pairM1 : Model :=
  ((pairM0.add "A" (oracle0.pds 0)).toOption.getD (pairM0, 0)).1

def pairM2 : Model :=
  ((pairM1.add "B" (oracle0.pds 1)).toOption.getD (pairM1, 0)).1

def pairM3 : Model :=
  ((pairM2.add "B" (oracle0.pds 2)).toOption.getD (pairM2, 0)).1

/-- `pairM3` after `complete_associations` of asset 0 in normal mode: asset 0
reaches its target of exactly one `B` neighbour (asset 1). -/
def pairM4 : Model := (Model.complete_associations oracle0 0 false 0 pairM3).1

/-- A single population-capped asset type with no associations. -/
def mmCap : Metamodel :=
  [("A", { abbreviation := "a", nSpec := some exSpec,
           associated_assets := [] })]

/-- The capped model whose population cap committed `value = 0`. -/
def capM0 : Model :=
  Model.init mmCap (fun _ => { value := 0, low := 0, high := 0 })

/-- A single uncapped asset type with no associations, abbreviation `A`. -/
def mmSolo : Metamodel :=
  [("A", { abbreviation := "A", nSpec := none, associated_assets := [] })]

def soloM0 : Model :=
  Model.init mmSolo (fun _ => { value := 5, low := 5, high := 5 })

def soloM1 : Model :=
  ((soloM0.add "A" (oracle0.pds 0)).toOption.getD (soloM0, 0)).1

def soloM2 : Model :=
  ((soloM1.add "A" (oracle0.pds 1)).toOption.getD (soloM1, 0)).1

/-- The asset created first in `pairM1` (id 0). -/
def pairAssetA : Asset :=
  Asset.make "a0" "A" [("B", { value := 1, low := 0, high := 3 })]

/-- The asset created third in `pairM3` (id 2). -/
def pairAssetB : Asset :=
  Asset.make "b1" "B" [("A", { value := 2, low := 0, high := 2 })]

/-- `soloM2` with the first asset removed: one live asset named `A1`. -/
def soloM3 : Model := soloM2.remove 0

/-- Adding again after the removal: the new asset is also named `A1`. -/
def soloM4 : Model :=
  ((soloM3.add "A" (oracle0.pds 2)).toOption.getD (soloM3, 0)).1

/-! ## Lemmas about the dictionary and set primitives -/

theorem alook_eq_none_iff {K V : Type} [DecidableEq K] (l : List (K × V))
    (k : K) : alook l k = none ↔ k ∉ l.map (fun p => p.1) := by
  induction l with
  | nil => simp [alook]
  | cons p rest ih =>
    obtain ⟨k', v⟩ := p
    simp only [alook, List.map_cons, List.mem_cons]
    by_cases h : k' = k
    · subst h; simp
    · rw [if_neg h, ih]
      constructor
      · intro hk hor
        rcases hor with h1 | h2
        · exact h h1.symm
        · exact hk h2
      · intro hk hm
        exact hk (Or.inr hm)

theorem alook_aupd_self {K V : Type} [DecidableEq K] (l : List (K × V))
    (k : K) (f : V → V) : alook (aupd l k f) k = (alook l k).map f := by
  induction l with
  | nil => rfl
  | cons p rest ih =>
    obtain ⟨k', v⟩ := p
    by_cases h : k' = k
    · simp [aupd, alook, h]
    · simpa [aupd, alook, h] using ih

theorem alook_aupd_ne {K V : Type} [DecidableEq K] (l : List (K × V))
    (k k' : K) (f : V → V) (h : k' ≠ k) :
    alook (aupd l k f) k' = alook l k' := by
  induction l with
  | nil => rfl
  | cons p rest ih =>
    obtain ⟨k₀, v⟩ := p
    by_cases hp : k₀ = k
    · subst hp
      have hk : ¬(k₀ = k') := fun hk => h (Eq.symm hk)
      simp only [aupd, if_pos rfl, alook, if_neg hk]
      exact ih
    · by_cases hp' : k₀ = k'
      · subst hp'
        simp [aupd, alook, hp]
      · simpa [aupd, alook, hp, hp'] using ih

theorem keys_aupd {K V : Type} [DecidableEq K] (l : List (K × V)) (k : K)
    (f : V → V) :
    (aupd l k f).map (fun p => p.1) = l.map (fun p => p.1) := by
  induction l with
  | nil => rfl
  | cons p rest ih =>
    obtain ⟨k', v⟩ := p
    by_cases h : k' = k
    · simpa [aupd, h] using ih
    · simpa [aupd, h] using ih

theorem alook_append {K V : Type} [DecidableEq K] (l₁ l₂ : List (K × V))
    (k : K) :
    alook (l₁ ++ l₂) k =
      match alook l₁ k with
      | some v => some v
      | none => alook l₂ k := by
  induction l₁ with
  | nil => rfl
  | cons p rest ih =>
    by_cases h : p.1 = k
    · simp [alook, h]
    · simpa [alook, h] using ih

theorem mem_insertNew {x y : Nat} {l : List Nat} :
    y ∈ insertNew x l ↔ y = x ∨ y ∈ l := by
  simp only [insertNew]
  by_cases h : x ∈ l
  · simp only [if_pos h]
    constructor
    · exact Or.inr
    · rintro (rfl | hy)
      · exact h
      · exact hy
  · simp [if_neg h, or_comm]

theorem nodup_insertNew {x : Nat} {l : List Nat} (h : l.Nodup) :
    (insertNew x l).Nodup := by
  simp only [insertNew]
  by_cases hx : x ∈ l
  · simpa [if_pos hx] using h
  · simp [if_neg hx, List.nodup_append, h, hx]

theorem length_insertNew_le (x : Nat) (l : List Nat) :
    (insertNew x l).length ≤ l.length + 1 := by
  simp only [insertNew]
  by_cases hx : x ∈ l
  · simp [if_pos hx, Nat.le_succ]
  · simp [if_neg hx]

theorem length_insertNew_of_not_mem {x : Nat} {l : List Nat} (h : x ∉ l) :
    (insertNew x l).length = l.length + 1 := by
  simp [insertNew, h]

theorem insertNew_of_mem {x : Nat} {l : List Nat} (h : x ∈ l) :
    insertNew x l = l := by
  simp [insertNew, h]

theorem alook_ensureKey_self {K V : Type} [DecidableEq K] (l : List (K × V))
    (k : K) (v0 : V) :
    alook (ensureKey l k v0) k = some ((alook l k).getD v0) := by
  cases hv : alook l k with
  | some v => simp [ensureKey, hv]
  | none => simp [ensureKey, hv, alook_append, alook]

theorem alook_ensureKey_ne {K V : Type} [DecidableEq K] (l : List (K × V))
    (k k' : K) (v0 : V) (h : k' ≠ k) :
    alook (ensureKey l k v0) k' = alook l k' := by
  cases hv : alook l k with
  | some v => simp [ensureKey, hv]
  | none =>
    simp only [ensureKey, hv]
    rw [alook_append]
    cases hl : alook l k' with
    | some v => rfl
    | none =>
      simp only [alook]
      rw [if_neg (fun hk : k = k' => h (Eq.symm hk))]

theorem getD_alook_map_nil (tds : List (TypeName × ProbabilityDistribution))
    (t : TypeName) :
    (alook (tds.map (fun p => (p.1, ([] : List Nat)))) t).getD [] = [] := by
  induction tds with
  | nil => rfl
  | cons p rest ih =>
    by_cases h : p.1 = t
    · simp [alook, h]
    · simpa [alook, h] using ih

theorem setFor_make (name : String) (ty : TypeName)
    (tds : List (TypeName × ProbabilityDistribution)) (t : TypeName) :
    (Asset.make name ty tds).setFor t = [] := by
  simp [Asset.make, Asset.setFor, getD_alook_map_nil]

theorem lookupAsset_heapModify_self (m : Model) (aid : Nat)
    (f : Asset → Asset) :
    (m.heapModify aid f).lookupAsset aid = (m.lookupAsset aid).map f := by
  simp [Model.heapModify, Model.lookupAsset, alook_aupd_self]

theorem lookupAsset_heapModify_ne (m : Model) (aid : Nat) (f : Asset → Asset)
    (x : Nat) (h : x ≠ aid) :
    (m.heapModify aid f).lookupAsset x = m.lookupAsset x := by
  simp [Model.heapModify, Model.lookupAsset, alook_aupd_ne _ _ _ _ h]

theorem heapModify_assets (m : Model) (aid : Nat) (f : Asset → Asset) :
    (m.heapModify aid f).assets = m.assets := rfl

theorem heapModify_metamodel (m : Model) (aid : Nat) (f : Asset → Asset) :
    (m.heapModify aid f).metamodel = m.metamodel := rfl

theorem heapModify_n_assets (m : Model) (aid : Nat) (f : Asset → Asset) :
    (m.heapModify aid f).n_assets = m.n_assets := rfl

theorem heapModify_nextId (m : Model) (aid : Nat) (f : Asset → Asset) :
    (m.heapModify aid f).nextId = m.nextId := rfl

theorem heapModify_heapKeys (m : Model) (aid : Nat) (f : Asset → Asset) :
    (m.heapModify aid f).heap.map (fun p => p.1) =
      m.heap.map (fun p => p.1) := by
  simp [Model.heapModify, keys_aupd]

/-! ## Claim C4 : ProbabilityDistribution construction -/

theorem foldl_min_le_init (l : List Nat) (a : Nat) : l.foldl min a ≤ a := by
  induction l generalizing a with
  | nil => exact le_refl a
  | cons b l ih => exact le_trans (ih (min a b)) (min_le_left a b)

theorem le_foldl_max_init (l : List Nat) (a : Nat) : a ≤ l.foldl max a := by
  induction l generalizing a with
  | nil => exact le_refl a
  | cons b l ih => exact le_trans (le_max_left a b) (ih (max a b))

/-- Claim C4, counterexample.  On the concrete draw stream `0, 1, 2, …` with
two bound samples, the code's construction (`mkProbabilityDistribution`)
takes `value` from the same sample list as the bounds, yielding
`value = 0 ∈ [0, 1]`, whereas the construction the claim describes
(`mkProbabilityDistributionSpec`: one separate `value` draw, then the bound
draws) would yield `value = 0` with bounds `[1, 2]`, i.e. `value` outside
the band.  The two constructions produce different results, so construction
does not draw the bound samples independently of `value`. -/
theorem probdist_construction_counterexample :
    mkProbabilityDistribution { kind := DistKind.Binomial, n := 5 }
        (fun i => i) 2 = some { value := 0, low := 0, high := 1 } ∧
    mkProbabilityDistributionSpec { kind := DistKind.Binomial, n := 5 }
        (fun i => i) 2 = some { value := 0, low := 1, high := 2 } ∧
    mkProbabilityDistribution { kind := DistKind.Binomial, n := 5 }
        (fun i => i) 2 ≠
      mkProbabilityDistributionSpec { kind := DistKind.Binomial, n := 5 }
        (fun i => i) 2 := by
  refine ⟨by decide, by decide, by decide⟩

/-- Claim C4, amended.  `ProbabilityDistribution.__init__` draws a single
list of `N` samples; `value` is the first of them and `low`/`high` are the
minimum and maximum of the same list, so `low ≤ value ≤ high` always holds
(construction succeeds exactly when `N ≥ 1`). -/
theorem probdist_value_within_bounds (d : DistSpec) (draws : Nat → Nat)
    (nSamples : Nat) (h : 0 < nSamples) :
    ∃ pd, mkProbabilityDistribution d draws nSamples = some pd ∧
      pd.low ≤ pd.value ∧ pd.value ≤ pd.high := by
  cases nSamples with
  | zero => exact absurd h (Nat.lt_irrefl 0)
  | succ k =>
    simp only [mkProbabilityDistribution, List.range_succ_eq_map,
      List.map_cons]
    exact ⟨_, rfl, foldl_min_le_init _ _, le_foldl_max_init _ _⟩

/-- Witness for C4's amended theorem at `N = 2`. -/
theorem probdist_value_within_bounds_witness :
    0 < 2 ∧ ∃ pd, mkProbabilityDistribution exSpec (fun i => i) 2 = some pd ∧
      pd.low ≤ pd.value ∧ pd.value ≤ pd.high :=
  ⟨by decide, probdist_value_within_bounds exSpec (fun i => i) 2 (by decide)⟩

/-! ## Claim C6 : the repair loop is bounded -/

/-- Claim C6.  For every model, attempt bound and random outcome,
`resolve_inconsistency` either stops with `check_consistency` empty and no
failure report, or reports failure after exactly `attempts + 1` repair
passes; the pass count can never exceed `attempts + 1`, so the loop is
bounded. -/
theorem resolve_inconsistency_bounded (o : Oracle) (attempts step : Nat)
    (m : Model) :
    ((Model.resolve_inconsistency o attempts step m).failed = false ∧
      (Model.resolve_inconsistency o attempts step m).model.check_consistency
        = []) ∨
    ((Model.resolve_inconsistency o attempts step m).failed = true ∧
      (Model.resolve_inconsistency o attempts step m).passes = attempts + 1)
    := by
  unfold Model.resolve_inconsistency
  induction attempts generalizing step m with
  | zero =>
    by_cases h : m.check_consistency = []
    · exact Or.inl (by simp [Model.resolveAux, h])
    · exact Or.inr (by simp [Model.resolveAux, h])
  | succ n ih =>
    by_cases h : m.check_consistency = []
    · exact Or.inl (by simp [Model.resolveAux, h])
    · have hrec := ih (Model.repairPass o m.check_consistency step m).2
        (Model.repairPass o m.check_consistency step m).1
      rcases hrec with ⟨h1, h2⟩ | ⟨h1, h2⟩
      · exact Or.inl (by simp [Model.resolveAux, h, h1, h2])
      · exact Or.inr (by simp [Model.resolveAux, h, h1, h2])

/-! ## Claim C5 : force mode never creates assets -/

/-- `Asset.associate` changes only the contents of the two heap entries: the
live-asset sets, the heap identifiers, the counter and the static data are
untouched. -/
theorem associate_frame {m m' : Model} {sid tid : Nat}
    (h : m.associate sid tid = Except.ok m') :
    m'.assets = m.assets ∧ m'.metamodel = m.metamodel ∧
    m'.n_assets = m.n_assets ∧ m'.nextId = m.nextId ∧
    m'.heap.map (fun p => p.1) = m.heap.map (fun p => p.1) := by
  unfold Model.associate at h
  split at h
  · split at h
    · cases h
    · cases h
      refine ⟨rfl, rfl, rfl, rfl, ?_⟩
      rw [heapModify_heapKeys, heapModify_heapKeys]
  · cases h

/-- Successful `Model.add` characterized: the type is a metamodel key, the
new identifier is `nextId`, and the resulting model appends the new asset
to the heap and inserts its identifier into the type's set. -/
theorem add_ok_destruct {m m' : Model} {ty : TypeName} {aid : Nat}
    {pds : TypeName → ProbabilityDistribution}
    (h : m.add ty pds = Except.ok (m', aid)) :
    ∃ spec, alook m.metamodel ty = some spec ∧ aid = m.nextId ∧
      m' = { m with
        heap := m.heap ++ [(m.nextId,
          Asset.make (spec.abbreviation ++
              Nat.repr ((alook m.assets ty).getD []).length) ty
            (spec.associated_assets.map (fun p => (p.1, pds p.1))))],
        assets := aupd m.assets ty (insertNew m.nextId),
        nextId := m.nextId + 1 } := by
  unfold Model.add at h
  split at h
  · next spec hspec =>
    cases h
    exact ⟨spec, hspec, rfl, rfl⟩
  · cases h

/-- Case analysis of the target-selection step: no target (break), an
existing available target with the model untouched, or — only when force
mode is off and the population target is unmet — a freshly added asset. -/
theorem pickTarget_cases (o : Oracle) (sid : Nat) (t : TypeName)
    (force : Bool) (step : Nat) (m : Model) :
    (Model.pickTarget o sid t force step m = none) ∨
    (∃ tid, tid ∈ m.available_targets sid t force ∧
      Model.pickTarget o sid t force step m = some (m, tid)) ∨
    (Model.countLive m t < m.capValue t ∧ force = false ∧
      ∃ m1 aid, m.add t (o.pds m.nextId) = Except.ok (m1, aid) ∧
        Model.pickTarget o sid t force step m = some (m1, aid)) := by
  unfold Model.pickTarget
  by_cases hav : 0 < (m.available_targets sid t force).length
  · refine Or.inr (Or.inl ⟨(m.available_targets sid t force).get
      ⟨o.choice step % (m.available_targets sid t force).length,
       Nat.mod_lt _ hav⟩, List.get_mem _ _ _, ?_⟩)
    simp [dif_pos hav]
  · simp only [dif_neg hav]
    by_cases hcap : ((alook m.assets t).getD []).length < m.capValue t
    · cases hf : force with
      | true => exact Or.inl (by simp [hcap])
      | false =>
        cases ha : m.add t (o.pds m.nextId) with
        | ok r =>
          obtain ⟨m1, aid⟩ := r
          exact Or.inr (Or.inr ⟨hcap, rfl, m1, aid, rfl, by simp [hcap]⟩)
        | error e => exact Or.inl (by simp [hcap])
    · exact Or.inl (by simp [hcap])

/-- In force mode the inner association loop never calls `Model.add`: the
per-type live sets, the heap identifiers and the identifier counter are
exactly preserved. -/
theorem completeTypeAux_force_frame (o : Oracle) (sid : Nat) (t : TypeName) :
    ∀ fuel step m,
      (Model.completeTypeAux o sid t true fuel step m).1.assets = m.assets ∧
      (Model.completeTypeAux o sid t true fuel step m).1.metamodel
        = m.metamodel ∧
      (Model.completeTypeAux o sid t true fuel step m).1.n_assets
        = m.n_assets ∧
      (Model.completeTypeAux o sid t true fuel step m).1.nextId = m.nextId ∧
      (Model.completeTypeAux o sid t true fuel step m).1.heap.map
          (fun p => p.1) = m.heap.map (fun p => p.1) := by
  intro fuel
  induction fuel with
  | zero => exact fun step m => ⟨rfl, rfl, rfl, rfl, rfl⟩
  | succ fuel ih =>
    intro step m
    simp only [Model.completeTypeAux]
    cases hs : m.lookupAsset sid with
    | none => exact ⟨rfl, rfl, rfl, rfl, rfl⟩
    | some s =>
      by_cases hacc : s.accepts t false
      · simp only [hacc, if_true]
        rcases pickTarget_cases o sid t true step m with hp | ⟨tid, hmem, hp⟩
          | ⟨_, hf, _⟩
        · simp [hp]
        · simp only [hp]
          cases hassoc : m.associate sid tid with
          | ok m'' =>
            simp only [hassoc]
            obtain ⟨f1, f2, f3, f4, f5⟩ := associate_frame hassoc
            obtain ⟨g1, g2, g3, g4, g5⟩ := ih (step + 1) m''
            exact ⟨g1.trans f1, g2.trans f2, g3.trans f3, g4.trans f4,
              g5.trans f5⟩
          | error e => simp [hassoc]
        · exact Bool.noConfusion hf
      · simp [hacc]

/-- Claim C5.  `complete_associations` with `force = true` creates no asset:
every per-type collection holds exactly the same assets afterwards, the set
of allocated heap identifiers is unchanged, and so is the fresh-identifier
counter (only association sets and the completion flag may change). -/
theorem complete_associations_force_frame (o : Oracle) (sid step : Nat)
    (m : Model) :
    (Model.complete_associations o sid true step m).1.assets = m.assets ∧
    (Model.complete_associations o sid true step m).1.nextId = m.nextId ∧
    (Model.complete_associations o sid true step m).1.heap.map (fun p => p.1)
      = m.heap.map (fun p => p.1) := by
  unfold Model.complete_associations
  cases hs : m.lookupAsset sid with
  | none => exact ⟨rfl, rfl, rfl⟩
  | some s =>
    have main : ∀ (ts : List TypeName) (acc : Model × Nat),
        ((ts.foldl (fun acc t =>
            Model.completeType o sid t true acc.2 acc.1) acc)).1.assets
          = acc.1.assets ∧
        ((ts.foldl (fun acc t =>
            Model.completeType o sid t true acc.2 acc.1) acc)).1.nextId
          = acc.1.nextId ∧
        ((ts.foldl (fun acc t =>
            Model.completeType o sid t true acc.2 acc.1) acc)).1.heap.map
            (fun p => p.1)
          = acc.1.heap.map (fun p => p.1) := by
      intro ts
      induction ts with
      | nil => exact fun acc => ⟨rfl, rfl, rfl⟩
      | cons t ts ih =>
        intro acc
        obtain ⟨g1, g2, g3⟩ := ih (Model.completeType o sid t true acc.2 acc.1)
        obtain ⟨f1, _, _, f4, f5⟩ :=
          completeTypeAux_force_frame o sid t _ acc.2 acc.1
        refine ⟨?_, ?_, ?_⟩
        · rw [List.foldl_cons, g1]
          exact f1
        · rw [List.foldl_cons, g2]
          exact f4
        · rw [List.foldl_cons, g3]
          exact f5
    obtain ⟨g1, g2, g3⟩ := main (s.n_associated_assets.map (fun p => p.1))
      (m, step)
    refine ⟨?_, ?_, ?_⟩
    · simpa [heapModify_assets] using g1
    · simpa [heapModify_nextId] using g2
    · rw [heapModify_heapKeys]
      exact g3

/-! ## Further dictionary lemmas -/

theorem alook_mem_keys {K V : Type} [DecidableEq K] {l : List (K × V)}
    {k : K} {v : V} (h : alook l k = some v) :
    k ∈ l.map (fun p => p.1) := by
  by_contra hk
  rw [(alook_eq_none_iff l k).mpr hk] at h
  cases h

theorem exists_alook_of_mem_keys {K V : Type} [DecidableEq K]
    {l : List (K × V)} {k : K} (h : k ∈ l.map (fun p => p.1)) :
    ∃ v, alook l k = some v := by
  cases hv : alook l k with
  | some v => exact ⟨v, rfl⟩
  | none => exact absurd h ((alook_eq_none_iff l k).mp hv)

theorem alook_map_const {K V W : Type} [DecidableEq K] (l : List (K × V))
    (w : W) (k : K) :
    alook (l.map (fun p => (p.1, w))) k = none ∨
    alook (l.map (fun p => (p.1, w))) k = some w := by
  induction l with
  | nil => exact Or.inl rfl
  | cons p rest ih =>
    by_cases h : p.1 = k
    · exact Or.inr (by simp [alook, h])
    · simpa [alook, h] using ih

theorem mem_aupd_ensureKey (l : List (TypeName × List Nat)) (τ : TypeName)
    (x : Nat) :
    x ∈ (alook (aupd (ensureKey l τ []) τ (insertNew x)) τ).getD [] := by
  rw [alook_aupd_self, alook_ensureKey_self]
  simp [mem_insertNew]

/-! ## The invariant holds initially -/

/-- A freshly constructed model is well formed: the heap is empty and every
per-type set is empty. -/
theorem Inv_init (mm : Metamodel)
    (npds : TypeName → ProbabilityDistribution) (hmm : MetamodelWF mm) :
    Inv (Model.init mm npds) := by
  have hlook : ∀ aid, (Model.init mm npds).lookupAsset aid = none :=
    fun aid => rfl
  have hassets : ∀ t l, alook (Model.init mm npds).assets t = some l →
      l = [] := by
    intro t l h
    rcases alook_map_const mm ([] : List Nat) t with hc | hc
    · rw [show (Model.init mm npds).assets
          = mm.map (fun p => (p.1, ([] : List Nat))) from rfl] at h
      rw [hc] at h
      cases h
    · rw [show (Model.init mm npds).assets
          = mm.map (fun p => (p.1, ([] : List Nat))) from rfl] at h
      rw [hc] at h
      cases h
      rfl
  refine ⟨hmm, rfl, by simp [Model.init], ?_, ?_, ?_, ?_, ?_, ?_, ?_⟩
  · intro aid a h
    rw [hlook aid] at h
    cases h
  · intro t l h
    rw [hassets t l h]
    exact List.nodup_nil
  · intro t l aid h hm
    rw [hassets t l h] at hm
    cases hm
  · intro aid a t h
    rw [hlook aid] at h
    cases h
  · intro aid a t bid h
    rw [hlook aid] at h
    cases h
  · intro aid bid a b ha
    rw [hlook aid] at ha
    cases ha
  · intro aid a t h
    rw [hlook aid] at h
    cases h

theorem lookup_double_modify_self (m : Model) (aid : Nat)
    (f g : Asset → Asset) (a : Asset) (h : m.lookupAsset aid = some a) :
    ((m.heapModify aid f).heapModify aid g).lookupAsset aid = some (g (f a))
    := by
  rw [lookupAsset_heapModify_self, lookupAsset_heapModify_self, h]
  rfl

theorem lookup_modify_pair_first (m : Model) (sid tid : Nat)
    (f g : Asset → Asset) (s : Asset) (hne : sid ≠ tid)
    (h : m.lookupAsset sid = some s) :
    ((m.heapModify sid f).heapModify tid g).lookupAsset sid = some (f s) := by
  rw [lookupAsset_heapModify_ne _ _ _ _ hne, lookupAsset_heapModify_self, h]
  rfl

theorem lookup_modify_pair_second (m : Model) (sid tid : Nat)
    (f g : Asset → Asset) (t : Asset) (hne : tid ≠ sid)
    (h : m.lookupAsset tid = some t) :
    ((m.heapModify sid f).heapModify tid g).lookupAsset tid = some (g t) := by
  rw [lookupAsset_heapModify_self, lookupAsset_heapModify_ne _ _ _ _ hne, h]
  rfl

theorem alook_append_left {K V : Type} [DecidableEq K] {l₁ : List (K × V)}
    (l₂ : List (K × V)) {k : K} {v : V} (h : alook l₁ k = some v) :
    alook (l₁ ++ l₂) k = some v := by
  rw [alook_append, h]

theorem alook_append_of_none {K V : Type} [DecidableEq K]
    {l₁ : List (K × V)} (l₂ : List (K × V)) {k : K}
    (h : alook l₁ k = none) : alook (l₁ ++ l₂) k = alook l₂ k := by
  rw [alook_append, h]

theorem mem_of_alook {K V : Type} [DecidableEq K] {l : List (K × V)} {k : K}
    {v : V} (h : alook l k = some v) : (k, v) ∈ l := by
  induction l with
  | nil => cases h
  | cons p rest ih =>
    obtain ⟨k', v'⟩ := p
    by_cases hk : k' = k
    · subst hk
      simp only [alook, if_pos rfl] at h
      cases h
      exact List.mem_cons_self _ _
    · simp only [alook, if_neg hk] at h
      exact List.mem_cons_of_mem _ (ih h)

theorem alook_of_mem_nodupKeys {K V : Type} [DecidableEq K]
    {l : List (K × V)} (hnd : (l.map (fun p => p.1)).Nodup) {p : K × V}
    (hp : p ∈ l) : alook l p.1 = some p.2 := by
  induction l with
  | nil => cases hp
  | cons q rest ih =>
    obtain ⟨k', v'⟩ := q
    rcases List.mem_cons.mp hp with rfl | hmem
    · simp [alook]
    · have hk : k' ≠ p.1 := by
        intro hh
        have hmem' : p.1 ∈ rest.map (fun p => p.1) :=
          List.mem_map_of_mem _ hmem
        rw [← hh] at hmem'
        exact (List.nodup_cons.mp hnd).1 hmem'
      simp only [alook, if_neg hk]
      exact ih (List.nodup_cons.mp hnd).2 hmem

theorem Inv.lt_of_lookup {m : Model} (hinv : Inv m) {aid : Nat} {a : Asset}
    (h : m.lookupAsset aid = some a) : aid < m.nextId := by
  have hmem := alook_mem_keys h
  rw [hinv.heapIds] at hmem
  exact List.mem_range.mp hmem

theorem Inv.fresh_lookup_none {m : Model} (hinv : Inv m) :
    alook m.heap m.nextId = none := by
  rw [alook_eq_none_iff, hinv.heapIds]
  simp

/-- `Model.add` preserves the invariant. -/
theorem Inv_add {m m' : Model} {ty : TypeName} {aid : Nat}
    {pds : TypeName → ProbabilityDistribution} (hinv : Inv m)
    (h : m.add ty pds = Except.ok (m', aid)) : Inv m' := by
  obtain ⟨spec, hspec, haid, hm'⟩ := add_ok_destruct h
  subst haid
  subst hm'
  set n := m.nextId with hn
  set A := Asset.make (spec.abbreviation ++
      Nat.repr ((alook m.assets ty).getD []).length) ty
    (spec.associated_assets.map (fun p => (p.1, pds p.1))) with hA
  have hAtype : A.asset_type_name = ty := rfl
  have hAset : ∀ τ, A.setFor τ = [] := fun τ => setFor_make _ _ _ τ
  have hlookA : alook (m.heap ++ [(n, A)]) n = some A := by
    rw [alook_append_of_none _ hinv.fresh_lookup_none]
    simp [alook]
  have hlookOld : ∀ x b, alook m.heap x = some b →
      alook (m.heap ++ [(n, A)]) x = some b :=
    fun x b hb => alook_append_left _ hb
  have hlookInv : ∀ x b, alook (m.heap ++ [(n, A)]) x = some b →
      (x = n ∧ b = A) ∨ alook m.heap x = some b := by
    intro x b hb
    cases hx : alook m.heap x with
    | some v =>
      right
      rw [alook_append_left _ hx] at hb
      exact hb
    | none =>
      left
      rw [alook_append_of_none _ hx] at hb
      simp only [alook] at hb
      by_cases hxn : n = x
      · subst hxn
        rw [if_pos rfl] at hb
        cases hb
        exact ⟨rfl, rfl⟩
      · rw [if_neg hxn] at hb
        cases hb
  have hmemOld : ∀ x b τ y, alook m.heap x = some b → y ∈ b.setFor τ →
      y < n := by
    intro x b τ y hx hy
    obtain ⟨c, hc, hct⟩ := hinv.setType x b τ y hx hy
    exact hinv.lt_of_lookup hc
  refine ⟨hinv.mmWF, ?_, ?_, ?_, ?_, ?_, ?_, ?_, ?_, ?_⟩
  · show (m.heap ++ [(n, A)]).map (fun p => p.1) = List.range (n + 1)
    rw [List.map_append, hinv.heapIds, List.range_succ]
    rfl
  · show (aupd m.assets ty (insertNew n)).map (fun p => p.1) = _
    rw [keys_aupd]
    exact hinv.assetsKeys
  · intro x a hx
    rcases hlookInv x a hx with ⟨rfl, rfl⟩ | hold
    · show ((spec.associated_assets.map (fun p => (p.1, pds p.1))).map
        (fun p => (p.1, ([] : List Nat)))).map (fun p => p.1) |>.Nodup
      rw [List.map_map, List.map_map]
      exact hinv.mmWF.assocKeysNodup (ty, spec) (mem_of_alook hspec)
    · exact hinv.assocKeysNodup x a hold
  · intro t l hl
    by_cases ht : t = ty
    · subst ht
      rw [show alook (aupd m.assets t (insertNew n)) t
          = (alook m.assets t).map (insertNew n) from alook_aupd_self _ _ _]
        at hl
      cases hl0 : alook m.assets t with
      | none => rw [hl0] at hl; cases hl
      | some l0 =>
        rw [hl0] at hl
        cases hl
        exact nodup_insertNew (hinv.poolNodup t l0 hl0)
    · rw [alook_aupd_ne _ _ _ _ ht] at hl
      exact hinv.poolNodup t l hl
  · intro t l y hl hy
    by_cases ht : t = ty
    · subst ht
      rw [alook_aupd_self] at hl
      cases hl0 : alook m.assets t with
      | none => rw [hl0] at hl; cases hl
      | some l0 =>
        rw [hl0] at hl
        cases hl
        rcases mem_insertNew.mp hy with rfl | hy0
        · exact ⟨A, hlookA, hAtype⟩
        · obtain ⟨b, hb, hbt⟩ := hinv.poolType t l0 y hl0 hy0
          exact ⟨b, hlookOld y b hb, hbt⟩
    · rw [alook_aupd_ne _ _ _ _ ht] at hl
      obtain ⟨b, hb, hbt⟩ := hinv.poolType t l y hl hy
      exact ⟨b, hlookOld y b hb, hbt⟩
  · intro x a τ hx
    rcases hlookInv x a hx with ⟨rfl, rfl⟩ | hold
    · rw [hAset τ]
      exact List.nodup_nil
    · exact hinv.setNodup x a τ hold
  · intro x a τ y hx hy
    rcases hlookInv x a hx with ⟨rfl, rfl⟩ | hold
    · rw [hAset τ] at hy
      cases hy
    · obtain ⟨b, hb, hbt⟩ := hinv.setType x a τ y hold hy
      exact ⟨b, hlookOld y b hb, hbt⟩
  · intro x y a b hx hy
    rcases hlookInv x a hx with ⟨rfl, rfl⟩ | holdx
    · rcases hlookInv y b hy with ⟨rfl, rfl⟩ | holdy
      · simp [hAset]
      · constructor
        · intro hc
          have hc' : y ∈ ([] : List Nat) := hAset b.asset_type_name ▸ hc
          cases hc'
        · intro hc
          exact absurd (hmemOld y b A.asset_type_name n holdy hc)
            (Nat.lt_irrefl n)
    · rcases hlookInv y b hy with ⟨rfl, rfl⟩ | holdy
      · constructor
        · intro hc
          exact absurd (hmemOld x a A.asset_type_name n holdx hc)
            (Nat.lt_irrefl n)
        · intro hc
          have hc' : x ∈ ([] : List Nat) := hAset a.asset_type_name ▸ hc
          cases hc'
      · exact hinv.symm x y a b holdx holdy
  · intro x a τ hx
    rcases hlookInv x a hx with ⟨rfl, rfl⟩ | hold
    · rw [hAset τ]
      exact List.not_mem_nil _
    · exact hinv.noSelf x a τ hold

theorem setFor_src_update (s : Asset) (τt : TypeName) (tid : Nat)
    {s0 : List Nat} (hk : alook s.associated_assets τt = some s0)
    (τ : TypeName) :
    (({ s with
        associated_assets :=
          aupd s.associated_assets τt (insertNew tid) } : Asset).setFor τ) =
      if τ = τt then insertNew tid (s.setFor τ) else s.setFor τ := by
  by_cases hτ : τ = τt
  · subst hτ
    simp only [Asset.setFor, if_pos rfl]
    show (alook (aupd s.associated_assets τ (insertNew tid)) τ).getD [] = _
    rw [alook_aupd_self, hk]
    rfl
  · simp only [Asset.setFor, if_neg hτ]
    show (alook (aupd s.associated_assets τt (insertNew tid)) τ).getD [] = _
    rw [alook_aupd_ne _ _ _ _ hτ]

theorem setFor_tgt_update (t : Asset) (τs : TypeName) (sid : Nat)
    (τ : TypeName) :
    (({ t with
        associated_assets :=
          aupd (ensureKey t.associated_assets τs []) τs (insertNew sid) }
        : Asset).setFor τ) =
      if τ = τs then insertNew sid (t.setFor τ) else t.setFor τ := by
  by_cases hτ : τ = τs
  · subst hτ
    simp only [Asset.setFor, if_pos rfl]
    show (alook (aupd (ensureKey t.associated_assets τ [])
        τ (insertNew sid)) τ).getD [] = _
    rw [alook_aupd_self, alook_ensureKey_self]
    rfl
  · simp only [Asset.setFor, if_neg hτ]
    show (alook (aupd (ensureKey t.associated_assets τs [])
        τs (insertNew sid)) τ).getD [] = _
    rw [alook_aupd_ne _ _ _ _ hτ, alook_ensureKey_ne _ _ _ _ hτ]

theorem keys_ensureKey_nodup {K V : Type} [DecidableEq K]
    {l : List (K × V)} (k : K) (v0 : V)
    (hnd : (l.map (fun p => p.1)).Nodup) :
    ((ensureKey l k v0).map (fun p => p.1)).Nodup := by
  cases hv : alook l k with
  | some v => simpa [ensureKey, hv] using hnd
  | none =>
    have hk : k ∉ l.map (fun p => p.1) := (alook_eq_none_iff l k).mp hv
    simp [ensureKey, hv, List.nodup_append, hnd, hk]

theorem associate_ok_destruct {m m' : Model} {sid tid : Nat}
    (h : m.associate sid tid = Except.ok m') :
    ∃ s t s0, m.lookupAsset sid = some s ∧ m.lookupAsset tid = some t ∧
      alook s.associated_assets t.asset_type_name = some s0 ∧
      m' = (m.heapModify sid (fun a =>
        { a with
          associated_assets :=
            aupd a.associated_assets t.asset_type_name
              (insertNew tid) })).heapModify tid (fun a =>
        { a with
          associated_assets :=
            aupd (ensureKey a.associated_assets s.asset_type_name [])
              s.asset_type_name (insertNew sid) }) := by
  unfold Model.associate at h
  cases hs : m.lookupAsset sid with
  | none => rw [hs] at h; cases h
  | some s =>
    cases ht : m.lookupAsset tid with
    | none => rw [hs, ht] at h; cases h
    | some t =>
      simp only [hs, ht] at h
      cases hk : alook s.associated_assets t.asset_type_name with
      | none => rw [hk] at h; cases h
      | some s0 =>
        rw [hk] at h
        cases h
        exact ⟨s, t, s0, rfl, rfl, hk, rfl⟩

/-- `Asset.associate` (between two distinct allocated assets, called with
the source's realized-set entry present) preserves the invariant. -/
theorem Inv_associate {m m' : Model} {sid tid : Nat} (hinv : Inv m)
    (hne : sid ≠ tid) (h : m.associate sid tid = Except.ok m') : Inv m' := by
  obtain ⟨s, t, s0, hs, ht, hk, hm'⟩ := associate_ok_destruct h
  subst hm'
  set fS : Asset → Asset := fun a =>
    { a with
      associated_assets :=
        aupd a.associated_assets t.asset_type_name (insertNew tid) }
    with hfS
  set fT : Asset → Asset := fun a =>
    { a with
      associated_assets :=
        aupd (ensureKey a.associated_assets s.asset_type_name [])
          s.asset_type_name (insertNew sid) }
    with hfT
  have hlook_sid : ((m.heapModify sid fS).heapModify tid fT).lookupAsset sid
      = some (fS s) :=
    lookup_modify_pair_first m sid tid fS fT s hne hs
  have hlook_tid : ((m.heapModify sid fS).heapModify tid fT).lookupAsset tid
      = some (fT t) :=
    lookup_modify_pair_second m sid tid fS fT t (fun hh => hne hh.symm) ht
  have hlook_other : ∀ x, x ≠ sid → x ≠ tid →
      ((m.heapModify sid fS).heapModify tid fT).lookupAsset x
        = m.lookupAsset x := by
    intro x hxs hxt
    rw [lookupAsset_heapModify_ne _ _ _ _ hxt,
      lookupAsset_heapModify_ne _ _ _ _ hxs]
  have hSset : ∀ τ, (fS s).setFor τ =
      if τ = t.asset_type_name then insertNew tid (s.setFor τ)
      else s.setFor τ :=
    fun τ => setFor_src_update s _ tid hk τ
  have hTset : ∀ τ, (fT t).setFor τ =
      if τ = s.asset_type_name then insertNew sid (t.setFor τ)
      else t.setFor τ :=
    fun τ => setFor_tgt_update t _ sid τ
  have hStype : (fS s).asset_type_name = s.asset_type_name := rfl
  have hTtype : (fT t).asset_type_name = t.asset_type_name := rfl
  have hchar : ∀ x c,
      ((m.heapModify sid fS).heapModify tid fT).lookupAsset x = some c →
      ∃ b, m.lookupAsset x = some b ∧
        c.asset_type_name = b.asset_type_name ∧
        (∀ τ, (b.setFor τ).Nodup → (c.setFor τ).Nodup) ∧
        ((b.associated_assets.map (fun p => p.1)).Nodup →
          (c.associated_assets.map (fun p => p.1)).Nodup) ∧
        ∀ τ y, y ∈ c.setFor τ ↔ (y ∈ b.setFor τ ∨
          (x = sid ∧ τ = t.asset_type_name ∧ y = tid) ∨
          (x = tid ∧ τ = s.asset_type_name ∧ y = sid)) := by
    intro x c hx
    by_cases hxs : x = sid
    · subst hxs
      rw [hlook_sid] at hx
      have hc : c = fS s := ((Option.some.injEq _ _).mp hx).symm
      subst hc
      refine ⟨s, hs, hStype, ?_, ?_, ?_⟩
      · intro τ hnd
        rw [hSset τ]
        by_cases hτ : τ = t.asset_type_name
        · rw [if_pos hτ]
          exact nodup_insertNew hnd
        · rw [if_neg hτ]
          exact hnd
      · intro hnd
        show ((aupd s.associated_assets _ _).map (fun p => p.1)).Nodup
        rw [keys_aupd]
        exact hnd
      · intro τ y
        rw [hSset τ]
        by_cases hτ : τ = t.asset_type_name
        · rw [if_pos hτ, mem_insertNew]
          constructor
          · rintro (rfl | hy)
            · exact Or.inr (Or.inl ⟨rfl, hτ, rfl⟩)
            · exact Or.inl hy
          · rintro (hy | ⟨_, _, rfl⟩ | ⟨habs, _, _⟩)
            · exact Or.inr hy
            · exact Or.inl rfl
            · exact absurd habs hne
        · rw [if_neg hτ]
          constructor
          · exact fun hy => Or.inl hy
          · rintro (hy | ⟨_, hτ', _⟩ | ⟨habs, _, _⟩)
            · exact hy
            · exact absurd hτ' hτ
            · exact absurd habs hne
    · by_cases hxt : x = tid
      · subst hxt
        rw [hlook_tid] at hx
        have hc : c = fT t := ((Option.some.injEq _ _).mp hx).symm
        subst hc
        refine ⟨t, ht, hTtype, ?_, ?_, ?_⟩
        · intro τ hnd
          rw [hTset τ]
          by_cases hτ : τ = s.asset_type_name
          · rw [if_pos hτ]
            exact nodup_insertNew hnd
          · rw [if_neg hτ]
            exact hnd
        · intro hnd
          show ((aupd (ensureKey t.associated_assets _ _) _ _).map
            (fun p => p.1)).Nodup
          rw [keys_aupd]
          exact keys_ensureKey_nodup _ _ hnd
        · intro τ y
          rw [hTset τ]
          by_cases hτ : τ = s.asset_type_name
          · rw [if_pos hτ, mem_insertNew]
            constructor
            · rintro (rfl | hy)
              · exact Or.inr (Or.inr ⟨rfl, hτ, rfl⟩)
              · exact Or.inl hy
            · rintro (hy | ⟨habs, _, _⟩ | ⟨_, _, rfl⟩)
              · exact Or.inr hy
              · exact absurd habs.symm hne
              · exact Or.inl rfl
          · rw [if_neg hτ]
            constructor
            · exact fun hy => Or.inl hy
            · rintro (hy | ⟨habs, _, _⟩ | ⟨_, hτ', _⟩)
              · exact hy
              · exact absurd habs.symm hne
              · exact absurd hτ' hτ
      · rw [hlook_other x hxs hxt] at hx
        refine ⟨c, hx, rfl, fun τ hnd => hnd, fun hnd => hnd, ?_⟩
        intro τ y
        constructor
        · exact fun hy => Or.inl hy
        · rintro (hy | ⟨habs, _, _⟩ | ⟨habs, _, _⟩)
          · exact hy
          · exact absurd habs hxs
          · exact absurd habs hxt
  have hfwd : ∀ y d, m.lookupAsset y = some d →
      ∃ d', ((m.heapModify sid fS).heapModify tid fT).lookupAsset y
          = some d' ∧ d'.asset_type_name = d.asset_type_name := by
    intro y d hy
    by_cases hys : y = sid
    · subst hys
      rw [hs] at hy
      have hd : d = s := (Option.some.injEq _ _).mp hy.symm
      subst hd
      exact ⟨fS d, hlook_sid, hStype⟩
    · by_cases hyt : y = tid
      · subst hyt
        rw [ht] at hy
        have hd : d = t := (Option.some.injEq _ _).mp hy.symm
        subst hd
        exact ⟨fT d, hlook_tid, hTtype⟩
      · exact ⟨d, by rw [hlook_other y hys hyt]; exact hy, rfl⟩
  have hainj : ∀ x b, m.lookupAsset x = some b → x = sid → b = s := by
    intro x b hb hx
    subst hx
    rw [hs] at hb
    exact (Option.some.injEq _ _).mp hb.symm
  have hbinj : ∀ x b, m.lookupAsset x = some b → x = tid → b = t := by
    intro x b hb hx
    subst hx
    rw [ht] at hb
    exact (Option.some.injEq _ _).mp hb.symm
  refine ⟨hinv.mmWF, ?_, ?_, ?_, ?_, ?_, ?_, ?_, ?_, ?_⟩
  · show ((m.heapModify sid fS).heapModify tid fT).heap.map (fun p => p.1)
      = _
    rw [heapModify_heapKeys, heapModify_heapKeys]
    exact hinv.heapIds
  · exact hinv.assetsKeys
  · intro x a hx
    obtain ⟨b, hb, _, _, hkeys, _⟩ := hchar x a hx
    exact hkeys (hinv.assocKeysNodup x b hb)
  · exact hinv.poolNodup
  · intro τ l y hl hy
    obtain ⟨b, hb, hbt⟩ := hinv.poolType τ l y hl hy
    obtain ⟨b', hb', hbt'⟩ := hfwd y b hb
    exact ⟨b', hb', hbt'.trans hbt⟩
  · intro x a τ hx
    obtain ⟨b, hb, _, hnd, _, _⟩ := hchar x a hx
    exact hnd τ (hinv.setNodup x b τ hb)
  · intro x a τ y hx hy
    obtain ⟨b, hb, _, _, _, hmem⟩ := hchar x a hx
    rcases (hmem τ y).mp hy with hy0 | ⟨_, rfl, rfl⟩ | ⟨_, rfl, rfl⟩
    · obtain ⟨d, hd, hdt⟩ := hinv.setType x b τ y hb hy0
      obtain ⟨d', hd', hdt'⟩ := hfwd y d hd
      exact ⟨d', hd', hdt'.trans hdt⟩
    · exact ⟨fT t, hlook_tid, hTtype⟩
    · exact ⟨fS s, hlook_sid, hStype⟩
  · intro x y a' b' hx hy
    obtain ⟨a, hxa, hta, _, _, hmema⟩ := hchar x a' hx
    obtain ⟨b, hyb, htb, _, _, hmemb⟩ := hchar y b' hy
    rw [hta, htb, hmema b.asset_type_name y, hmemb a.asset_type_name x]
    constructor
    · rintro (hy0 | ⟨rfl, hbt, rfl⟩ | ⟨rfl, hbt, rfl⟩)
      · exact Or.inl ((hinv.symm x y a b hxa hyb).mp hy0)
      · have has : a = s := hainj x a hxa rfl
        exact Or.inr (Or.inr ⟨rfl, by rw [has], rfl⟩)
      · have hat : a = t := hbinj x a hxa rfl
        exact Or.inr (Or.inl ⟨rfl, by rw [hat], rfl⟩)
    · rintro (hy0 | ⟨rfl, hat, rfl⟩ | ⟨rfl, hat, rfl⟩)
      · exact Or.inl ((hinv.symm x y a b hxa hyb).mpr hy0)
      · have hbs : b = s := hainj y b hyb rfl
        exact Or.inr (Or.inr ⟨rfl, by rw [hbs], rfl⟩)
      · have hbt : b = t := hbinj y b hyb rfl
        exact Or.inr (Or.inl ⟨rfl, by rw [hbt], rfl⟩)
  · intro x a τ hx
    obtain ⟨b, hb, _, _, _, hmem⟩ := hchar x a hx
    intro hself
    rcases (hmem τ x).mp hself with hy0 | ⟨rfl, _, habs⟩ | ⟨rfl, _, habs⟩
    · exact hinv.noSelf x b τ hb hy0
    · exact hne habs
    · exact hne habs.symm


theorem setFor_congr {c b : Asset}
    (h : c.associated_assets = b.associated_assets) (τ : TypeName) :
    c.setFor τ = b.setFor τ := by
  unfold Asset.setFor
  rw [h]

/-- Modifying one heap object without touching its association dict or its
type preserves the invariant (used for the `generation_completed` flag). -/
theorem Inv_heapModify_keepAssoc {m : Model} (hinv : Inv m) (sid : Nat)
    (g : Asset → Asset)
    (hgt : ∀ a, (g a).asset_type_name = a.asset_type_name)
    (hga : ∀ a, (g a).associated_assets = a.associated_assets) :
    Inv (m.heapModify sid g) := by
  have hchar : ∀ x c, (m.heapModify sid g).lookupAsset x = some c →
      ∃ b, m.lookupAsset x = some b ∧
        c.asset_type_name = b.asset_type_name ∧
        c.associated_assets = b.associated_assets := by
    intro x c hx
    by_cases hxs : x = sid
    · subst hxs
      rw [lookupAsset_heapModify_self] at hx
      cases hb : m.lookupAsset x with
      | none => rw [hb] at hx; cases hx
      | some b =>
        rw [hb] at hx
        have hc : c = g b := ((Option.some.injEq _ _).mp hx).symm
        subst hc
        exact ⟨b, rfl, hgt b, hga b⟩
    · rw [lookupAsset_heapModify_ne _ _ _ _ hxs] at hx
      exact ⟨c, hx, rfl, rfl⟩
  have hfwd : ∀ y d, m.lookupAsset y = some d →
      ∃ d', (m.heapModify sid g).lookupAsset y = some d' ∧
        d'.asset_type_name = d.asset_type_name := by
    intro y d hy
    by_cases hys : y = sid
    · subst hys
      refine ⟨g d, ?_, hgt d⟩
      rw [lookupAsset_heapModify_self, hy]
      rfl
    · exact ⟨d, by rw [lookupAsset_heapModify_ne _ _ _ _ hys]; exact hy, rfl⟩
  refine ⟨hinv.mmWF, ?_, hinv.assetsKeys, ?_, hinv.poolNodup, ?_, ?_, ?_,
    ?_, ?_⟩
  · rw [heapModify_heapKeys]
    exact hinv.heapIds
  · intro x a hx
    obtain ⟨b, hb, _, hassoc⟩ := hchar x a hx
    rw [hassoc]
    exact hinv.assocKeysNodup x b hb
  · intro τ l y hl hy
    obtain ⟨b, hb, hbt⟩ := hinv.poolType τ l y hl hy
    obtain ⟨b', hb', hbt'⟩ := hfwd y b hb
    exact ⟨b', hb', hbt'.trans hbt⟩
  · intro x a τ hx
    obtain ⟨b, hb, _, hassoc⟩ := hchar x a hx
    rw [setFor_congr hassoc]
    exact hinv.setNodup x b τ hb
  · intro x a τ y hx hy
    obtain ⟨b, hb, _, hassoc⟩ := hchar x a hx
    rw [setFor_congr hassoc] at hy
    obtain ⟨d, hd, hdt⟩ := hinv.setType x b τ y hb hy
    obtain ⟨d', hd', hdt'⟩ := hfwd y d hd
    exact ⟨d', hd', hdt'.trans hdt⟩
  · intro x y a' b' hx hy
    obtain ⟨a, hxa, hta, haa⟩ := hchar x a' hx
    obtain ⟨b, hyb, htb, hba⟩ := hchar y b' hy
    rw [hta, htb, setFor_congr haa, setFor_congr hba]
    exact hinv.symm x y a b hxa hyb
  · intro x a τ hx
    obtain ⟨b, hb, _, hassoc⟩ := hchar x a hx
    rw [setFor_congr hassoc]
    exact hinv.noSelf x b τ hb

/-- Membership in `available_targets` guarantees a live, allocated target
that is distinct from the source whenever the types coincide. -/
theorem available_targets_mem {m : Model} {sid : Nat} {t : TypeName}
    {force : Bool} {tid : Nat} {s : Asset}
    (hs : m.lookupAsset sid = some s)
    (hmem : tid ∈ m.available_targets sid t force) :
    tid ∈ (alook m.assets t).getD [] ∧
    (∃ a, m.lookupAsset tid = some a) ∧
    (t = s.asset_type_name → tid ≠ sid) := by
  unfold Model.available_targets at hmem
  simp only [hs] at hmem
  by_cases hts : t = s.asset_type_name
  · rw [if_pos hts] at hmem
    obtain ⟨hmem', hne⟩ := List.mem_filter.mp hmem
    obtain ⟨hpool, hpred⟩ := List.mem_filter.mp hmem'
    refine ⟨hpool, ?_, fun _ => of_decide_eq_true hne⟩
    cases hl : m.lookupAsset tid with
    | none => rw [hl] at hpred; cases hpred
    | some a => exact ⟨a, rfl⟩
  · rw [if_neg hts] at hmem
    obtain ⟨hpool, hpred⟩ := List.mem_filter.mp hmem
    refine ⟨hpool, ?_, fun hh => absurd hh hts⟩
    cases hl : m.lookupAsset tid with
    | none => rw [hl] at hpred; cases hpred
    | some a => exact ⟨a, rfl⟩

/-- The inner association loop preserves the invariant. -/
theorem Inv_completeTypeAux (o : Oracle) (sid : Nat) (t : TypeName)
    (force : Bool) : ∀ fuel step m, Inv m →
    Inv (Model.completeTypeAux o sid t force fuel step m).1 := by
  intro fuel
  induction fuel with
  | zero => exact fun step m h => h
  | succ fuel ih =>
    intro step m hinv
    simp only [Model.completeTypeAux]
    cases hs : m.lookupAsset sid with
    | none => exact hinv
    | some s =>
      by_cases hacc : s.accepts t false
      · simp only [hacc, if_true]
        rcases pickTarget_cases o sid t force step m with hp
          | ⟨tid, hmem, hp⟩ | ⟨hcap, hf, m1, aid, ha, hp⟩
        · simp only [hp]
          exact hinv
        · simp only [hp]
          have hne : sid ≠ tid := by
            obtain ⟨hpool, ⟨ta, hta⟩, hcond⟩ := available_targets_mem hs hmem
            by_cases hts : t = s.asset_type_name
            · exact fun hh => hcond hts hh.symm
            · intro hh
              cases hlp : alook m.assets t with
              | none =>
                rw [hlp] at hpool
                cases hpool
              | some l =>
                rw [hlp] at hpool
                obtain ⟨b, hb, hbt⟩ := hinv.poolType t l tid hlp hpool
                rw [← hh, hs] at hb
                have hbs : b = s := (Option.some.injEq _ _).mp hb.symm
                rw [hbs] at hbt
                exact hts hbt.symm
          cases hassoc : m.associate sid tid with
          | ok m'' =>
            simp only [hassoc]
            exact ih _ _ (Inv_associate hinv hne hassoc)
          | error e =>
            simp only [hassoc]
            exact hinv
        · simp only [hp]
          have hinv1 := Inv_add hinv ha
          obtain ⟨spec, hspec, haid, hm1⟩ := add_ok_destruct ha
          have hne : sid ≠ aid := by
            rw [haid]
            exact Nat.ne_of_lt (hinv.lt_of_lookup hs)
          cases hassoc : m1.associate sid aid with
          | ok m'' =>
            simp only [hassoc]
            exact ih _ _ (Inv_associate hinv1 hne hassoc)
          | error e =>
            simp only [hassoc]
            exact hinv1
      · simp only [hacc, if_false]
        exact hinv

theorem Inv_completeType (o : Oracle) (sid : Nat) (t : TypeName)
    (force : Bool) (step : Nat) (m : Model) (hinv : Inv m) :
    Inv (Model.completeType o sid t force step m).1 := by
  unfold Model.completeType
  exact Inv_completeTypeAux o sid t force _ step m hinv

theorem Inv_foldl_completeType (o : Oracle) (sid : Nat) (force : Bool)
    (ts : List TypeName) : ∀ m step, Inv m →
    Inv ((ts.foldl (fun acc t =>
      Model.completeType o sid t force acc.2 acc.1) (m, step))).1 := by
  induction ts with
  | nil => exact fun m step h => h
  | cons t ts ih =>
    intro m step hinv
    rw [List.foldl_cons]
    exact ih _ _ (Inv_completeType o sid t force step m hinv)

/-- `Model.complete_associations` preserves the invariant. -/
theorem Inv_complete_associations (o : Oracle) (sid : Nat) (force : Bool)
    (step : Nat) (m : Model) (hinv : Inv m) :
    Inv (Model.complete_associations o sid force step m).1 := by
  unfold Model.complete_associations
  cases hs : m.lookupAsset sid with
  | none => exact hinv
  | some s =>
    exact Inv_heapModify_keepAssoc
      (Inv_foldl_completeType o sid force _ m step hinv) sid _
      (fun a => rfl) (fun a => rfl)

theorem setFor_erase_update (b : Asset) (τa : TypeName) (aid : Nat)
    (τ : TypeName) :
    (({ b with
        associated_assets :=
          aupd b.associated_assets τa (fun s => s.erase aid) }
        : Asset).setFor τ) =
      if τ = τa then (b.setFor τ).erase aid else b.setFor τ := by
  by_cases hτ : τ = τa
  · subst hτ
    simp only [Asset.setFor, if_pos rfl]
    show (alook (aupd b.associated_assets τ (fun s => s.erase aid))
      τ).getD [] = _
    rw [alook_aupd_self]
    cases hl : alook b.associated_assets τ with
    | none => rfl
    | some lst => rfl
  · simp only [Asset.setFor, if_neg hτ]
    show (alook (aupd b.associated_assets τa (fun s => s.erase aid))
      τ).getD [] = _
    rw [alook_aupd_ne _ _ _ _ hτ]

theorem foldl_heapModify_static (eF : Asset → Asset) (L : List Nat) :
    ∀ m : Model,
      (L.foldl (fun acc tid => acc.heapModify tid eF) m).assets = m.assets ∧
      (L.foldl (fun acc tid => acc.heapModify tid eF) m).metamodel
        = m.metamodel ∧
      (L.foldl (fun acc tid => acc.heapModify tid eF) m).n_assets
        = m.n_assets ∧
      (L.foldl (fun acc tid => acc.heapModify tid eF) m).nextId
        = m.nextId ∧
      (L.foldl (fun acc tid => acc.heapModify tid eF) m).heap.map
        (fun p => p.1) = m.heap.map (fun p => p.1) := by
  induction L with
  | nil => exact fun m => ⟨rfl, rfl, rfl, rfl, rfl⟩
  | cons x L ih =>
    intro m
    rw [List.foldl_cons]
    obtain ⟨g1, g2, g3, g4, g5⟩ := ih (m.heapModify x eF)
    exact ⟨g1.trans (heapModify_assets m x eF),
      g2.trans (heapModify_metamodel m x eF),
      g3.trans (heapModify_n_assets m x eF),
      g4.trans (heapModify_nextId m x eF),
      g5.trans (heapModify_heapKeys m x eF)⟩

theorem foldl_heapModify_lookup (eF : Asset → Asset) :
    ∀ (L : List Nat), L.Nodup → ∀ (m : Model) (x : Nat),
      (L.foldl (fun acc tid => acc.heapModify tid eF) m).lookupAsset x =
        if x ∈ L then (m.lookupAsset x).map eF else m.lookupAsset x := by
  intro L
  induction L with
  | nil =>
    intro _ m x
    simp
  | cons tid L ih =>
    intro hnd m x
    rw [List.foldl_cons, ih (List.nodup_cons.mp hnd).2]
    by_cases hx : x ∈ L
    · rw [if_pos hx, if_pos (List.mem_cons_of_mem _ hx)]
      have hxt : x ≠ tid := fun hh => (List.nodup_cons.mp hnd).1 (hh ▸ hx)
      rw [lookupAsset_heapModify_ne _ _ _ _ hxt]
    · by_cases hxt : x = tid
      · subst hxt
        rw [if_neg hx, if_pos (List.mem_cons_self _ _),
          lookupAsset_heapModify_self]
      · rw [if_neg hx, if_neg (by simp [hx, hxt]),
          lookupAsset_heapModify_ne _ _ _ _ hxt]

theorem disassoc_nested_foldl (eF : Asset → Asset)
    (entries : List (TypeName × List Nat)) : ∀ m : Model,
    entries.foldl (fun acc p =>
      p.2.foldl (fun acc2 tid => acc2.heapModify tid eF) acc) m
      = (entries.flatMap (fun p => p.2)).foldl
          (fun acc tid => acc.heapModify tid eF) m := by
  induction entries with
  | nil => exact fun m => rfl
  | cons p rest ih =>
    intro m
    rw [List.foldl_cons, List.flatMap_cons, List.foldl_append, ih]

theorem nodup_flatMap_disjoint (T : Nat → TypeName) :
    ∀ (entries : List (TypeName × List Nat)),
    (entries.map (fun p => p.1)).Nodup →
    (∀ p ∈ entries, p.2.Nodup) →
    (∀ p ∈ entries, ∀ y ∈ p.2, T y = p.1) →
    (entries.flatMap (fun p => p.2)).Nodup := by
  intro entries
  induction entries with
  | nil => exact fun _ _ _ => List.nodup_nil
  | cons p rest ih =>
    intro hkeys hnd htyp
    rw [List.flatMap_cons, List.nodup_append]
    refine ⟨hnd p (List.mem_cons_self _ _),
      ih (List.nodup_cons.mp hkeys).2
        (fun q hq => hnd q (List.mem_cons_of_mem _ hq))
        (fun q hq => htyp q (List.mem_cons_of_mem _ hq)), ?_⟩
    intro y hy1 hy2
    obtain ⟨q, hq, hyq⟩ := List.mem_flatMap.mp hy2
    have h1 : T y = p.1 := htyp p (List.mem_cons_self _ _) y hy1
    have h2 : T y = q.1 := htyp q (List.mem_cons_of_mem _ hq) y hyq
    have : p.1 ∈ rest.map (fun p => p.1) := by
      rw [h1.symm.trans h2]
      exact List.mem_map_of_mem _ hq
    exact (List.nodup_cons.mp hkeys).1 this

theorem mem_flatMap_of_setFor {a : Asset} {τ : TypeName} {x : Nat}
    (hx : x ∈ a.setFor τ) :
    x ∈ a.associated_assets.flatMap (fun p => p.2) := by
  unfold Asset.setFor at hx
  cases hl : alook a.associated_assets τ with
  | none =>
    rw [hl] at hx
    cases hx
  | some lst =>
    rw [hl] at hx
    exact List.mem_flatMap.mpr ⟨(τ, lst), mem_of_alook hl, hx⟩

theorem entry_setFor {a : Asset}
    (hkeys : (a.associated_assets.map (fun p => p.1)).Nodup)
    {p : TypeName × List Nat} (hp : p ∈ a.associated_assets) :
    a.setFor p.1 = p.2 := by
  unfold Asset.setFor
  rw [alook_of_mem_nodupKeys hkeys hp]
  rfl

/-- `Model.remove` on an allocated asset, with the reciprocal-erasure fold
flattened over all neighbour identifiers. -/
theorem remove_destruct {m : Model} {aid : Nat} {a : Asset}
    (ha : m.lookupAsset aid = some a) :
    m.remove aid =
      { ((a.associated_assets.flatMap (fun p => p.2)).foldl
          (fun acc tid => acc.heapModify tid (fun b =>
            { b with
              associated_assets :=
                aupd b.associated_assets a.asset_type_name
                  (fun s => s.erase aid) })) m).heapModify aid
            (fun b => { b with associated_assets := [] }) with
        assets := aupd
          (((a.associated_assets.flatMap (fun p => p.2)).foldl
            (fun acc tid => acc.heapModify tid (fun b =>
              { b with
                associated_assets :=
                  aupd b.associated_assets a.asset_type_name
                    (fun s => s.erase aid) })) m).heapModify aid
              (fun b => { b with associated_assets := [] })).assets
          a.asset_type_name (fun l => l.erase aid) } := by
  unfold Model.remove Model.disassociate_all
  simp only [ha]
  rw [disassoc_nested_foldl]

/-- `Model.remove` preserves the invariant. -/
theorem Inv_remove {m : Model} (hinv : Inv m) (aid : Nat) :
    Inv (m.remove aid) := by
  cases ha : m.lookupAsset aid with
  | none =>
    unfold Model.remove
    rw [ha]
    exact hinv
  | some a =>
    rw [remove_destruct ha]
    set τa := a.asset_type_name with hτa
    set eF : Asset → Asset := fun b =>
      { b with
        associated_assets :=
          aupd b.associated_assets τa (fun s => s.erase aid) } with heF
    set clearF : Asset → Asset := fun b =>
      { b with associated_assets := [] } with hclear
    set L := a.associated_assets.flatMap (fun p => p.2) with hL
    have hkeysA := hinv.assocKeysNodup aid a ha
    have hLnd : L.Nodup := by
      refine nodup_flatMap_disjoint (fun y =>
        match m.lookupAsset y with
        | some b => b.asset_type_name
        | none => "") a.associated_assets hkeysA ?_ ?_
      · intro p hp
        rw [← entry_setFor hkeysA hp]
        exact hinv.setNodup aid a p.1 ha
      · intro p hp y hy
        rw [← entry_setFor hkeysA hp] at hy
        obtain ⟨b, hb, hbt⟩ := hinv.setType aid a p.1 y ha hy
        show (match m.lookupAsset y with
          | some b => b.asset_type_name
          | none => "") = p.1
        rw [hb]
        exact hbt
    have haL : aid ∉ L := by
      intro hmem
      obtain ⟨p, hp, hyp⟩ := List.mem_flatMap.mp hmem
      rw [← entry_setFor hkeysA hp] at hyp
      exact hinv.noSelf aid a p.1 ha hyp
    have hlook1 := foldl_heapModify_lookup eF L hLnd m
    obtain ⟨hs1, hs2, hs3, hs4, hs5⟩ := foldl_heapModify_static eF L m
    set m1 := L.foldl (fun acc tid => acc.heapModify tid eF) m with hm1
    have hfa : (m1.heapModify aid clearF).lookupAsset aid
        = some (clearF a) := by
      rw [lookupAsset_heapModify_self, hlook1 aid, if_neg haL, ha]
      rfl
    have hfx : ∀ x, x ≠ aid → (m1.heapModify aid clearF).lookupAsset x
        = if x ∈ L then (m.lookupAsset x).map eF else m.lookupAsset x := by
      intro x hx
      rw [lookupAsset_heapModify_ne _ _ _ _ hx, hlook1 x]
    have hclearSet : ∀ τ, (clearF a).setFor τ = [] := fun τ => rfl
    have heFset : ∀ b τ, (eF b).setFor τ =
        if τ = τa then (b.setFor τ).erase aid else b.setFor τ :=
      fun b τ => setFor_erase_update b τa aid τ
    have hnotMem : ∀ x b, x ∉ L → m.lookupAsset x = some b →
        aid ∉ b.setFor τa := by
      intro x b hxL hb hmem
      have hx : x ∈ a.setFor b.asset_type_name :=
        (hinv.symm aid x a b ha hb).mpr hmem
      exact hxL (mem_flatMap_of_setFor hx)
    have hcharR : ∀ x c, x ≠ aid →
        (m1.heapModify aid clearF).lookupAsset x = some c →
        ∃ b, m.lookupAsset x = some b ∧
          c.asset_type_name = b.asset_type_name ∧
          ((b.associated_assets.map (fun p => p.1)).Nodup →
            (c.associated_assets.map (fun p => p.1)).Nodup) ∧
          (∀ τ, (b.setFor τ).Nodup → (c.setFor τ).Nodup) ∧
          ∀ τ y, y ∈ c.setFor τ ↔
            (y ∈ b.setFor τ ∧ ¬(τ = τa ∧ y = aid)) := by
      intro x c hx hcx
      rw [hfx x hx] at hcx
      by_cases hxL : x ∈ L
      · rw [if_pos hxL] at hcx
        cases hb : m.lookupAsset x with
        | none => rw [hb] at hcx; cases hcx
        | some b =>
          rw [hb] at hcx
          have hc : c = eF b := ((Option.some.injEq _ _).mp hcx).symm
          subst hc
          refine ⟨b, rfl, rfl, ?_, ?_, ?_⟩
          · intro hnd
            show ((aupd b.associated_assets _ _).map (fun p => p.1)).Nodup
            rw [keys_aupd]
            exact hnd
          · intro τ hnd
            rw [heFset b τ]
            by_cases hτ : τ = τa
            · rw [if_pos hτ]
              exact hnd.erase aid
            · rw [if_neg hτ]
              exact hnd
          · intro τ y
            rw [heFset b τ]
            by_cases hτ : τ = τa
            · subst hτ
              rw [if_pos rfl]
              have hnd := hinv.setNodup x b τa hb
              rw [List.Nodup.mem_erase_iff hnd]
              constructor
              · rintro ⟨hyne, hymem⟩
                exact ⟨hymem, fun hcc => hyne hcc.2⟩
              · rintro ⟨hymem, hno⟩
                exact ⟨fun hcc => hno ⟨rfl, hcc⟩, hymem⟩
            · rw [if_neg hτ]
              constructor
              · exact fun hy => ⟨hy, fun hcc => hτ hcc.1⟩
              · exact fun hy => hy.1
      · rw [if_neg hxL] at hcx
        refine ⟨c, hcx, rfl, fun hnd => hnd, fun τ hnd => hnd, ?_⟩
        intro τ y
        constructor
        · intro hy
          refine ⟨hy, ?_⟩
          rintro ⟨rfl, rfl⟩
          exact hnotMem x c hxL hcx hy
        · exact fun hy => hy.1
    have hfwdR : ∀ y d, m.lookupAsset y = some d →
        ∃ d', (m1.heapModify aid clearF).lookupAsset y = some d' ∧
          d'.asset_type_name = d.asset_type_name := by
      intro y d hy
      by_cases hya : y = aid
      · subst hya
        rw [ha] at hy
        have hd : d = a := (Option.some.injEq _ _).mp hy.symm
        subst hd
        exact ⟨clearF d, hfa, rfl⟩
      · rw [hfx y hya]
        by_cases hyL : y ∈ L
        · rw [if_pos hyL, hy]
          exact ⟨eF d, rfl, rfl⟩
        · rw [if_neg hyL]
          exact ⟨d, hy, rfl⟩
    have hfinalLook : ∀ x, ({ m1.heapModify aid clearF with
        assets := aupd (m1.heapModify aid clearF).assets τa
          (fun l => l.erase aid) } : Model).lookupAsset x
        = (m1.heapModify aid clearF).lookupAsset x := fun x => rfl
    have hfinalAssets : ∀ τ, alook ({ m1.heapModify aid clearF with
        assets := aupd (m1.heapModify aid clearF).assets τa
          (fun l => l.erase aid) } : Model).assets τ
        = alook (aupd m.assets τa (fun l => l.erase aid)) τ := by
      intro τ
      show alook (aupd (m1.heapModify aid clearF).assets τa
        (fun l => l.erase aid)) τ = _
      rw [heapModify_assets, hs1]
    refine ⟨?_, ?_, ?_, ?_, ?_, ?_, ?_, ?_, ?_, ?_⟩
    · show MetamodelWF (m1.heapModify aid clearF).metamodel
      rw [heapModify_metamodel, hs2]
      exact hinv.mmWF
    · show ((m1.heapModify aid clearF).heap.map (fun p => p.1))
        = List.range (m1.heapModify aid clearF).nextId
      rw [heapModify_heapKeys, hs5, heapModify_nextId, hs4]
      exact hinv.heapIds
    · show (aupd (m1.heapModify aid clearF).assets τa
          (fun l => l.erase aid)).map (fun p => p.1)
        = (m1.heapModify aid clearF).metamodel.map (fun p => p.1)
      rw [keys_aupd, heapModify_assets, hs1, heapModify_metamodel, hs2]
      exact hinv.assetsKeys
    · intro x c hx
      rw [hfinalLook] at hx
      by_cases hxa : x = aid
      · rw [hxa, hfa] at hx
        have hc : c = clearF a := ((Option.some.injEq _ _).mp hx).symm
        rw [hc]
        exact List.nodup_nil
      · obtain ⟨b, hb, _, hkeys, _, _⟩ := hcharR x c hxa hx
        exact hkeys (hinv.assocKeysNodup x b hb)
    · intro τ l hl
      rw [hfinalAssets] at hl
      by_cases hτ : τ = τa
      · subst hτ
        rw [alook_aupd_self] at hl
        cases hl0 : alook m.assets τa with
        | none => rw [hl0] at hl; cases hl
        | some l0 =>
          rw [hl0] at hl
          have hle : l = l0.erase aid := ((Option.some.injEq _ _).mp hl).symm
          rw [hle]
          exact (hinv.poolNodup τa l0 hl0).erase aid
      · rw [alook_aupd_ne _ _ _ _ hτ] at hl
        exact hinv.poolNodup τ l hl
    · intro τ l y hl hy
      rw [hfinalAssets] at hl
      by_cases hτ : τ = τa
      · subst hτ
        rw [alook_aupd_self] at hl
        cases hl0 : alook m.assets τa with
        | none => rw [hl0] at hl; cases hl
        | some l0 =>
          rw [hl0] at hl
          have hle : l = l0.erase aid := ((Option.some.injEq _ _).mp hl).symm
          rw [hle] at hy
          obtain ⟨b, hb, hbt⟩ := hinv.poolType τa l0 y hl0
            (List.mem_of_mem_erase hy)
          obtain ⟨b', hb', hbt'⟩ := hfwdR y b hb
          refine ⟨b', ?_, hbt'.trans hbt⟩
          rw [hfinalLook]
          exact hb'
      · rw [alook_aupd_ne _ _ _ _ hτ] at hl
        obtain ⟨b, hb, hbt⟩ := hinv.poolType τ l y hl hy
        obtain ⟨b', hb', hbt'⟩ := hfwdR y b hb
        refine ⟨b', ?_, hbt'.trans hbt⟩
        rw [hfinalLook]
        exact hb'
    · intro x c τ hx
      rw [hfinalLook] at hx
      by_cases hxa : x = aid
      · rw [hxa, hfa] at hx
        have hc : c = clearF a := ((Option.some.injEq _ _).mp hx).symm
        rw [hc, hclearSet τ]
        exact List.nodup_nil
      · obtain ⟨b, hb, _, _, hnd, _⟩ := hcharR x c hxa hx
        exact hnd τ (hinv.setNodup x b τ hb)
    · intro x c τ y hx hy
      rw [hfinalLook] at hx
      by_cases hxa : x = aid
      · rw [hxa, hfa] at hx
        have hc : c = clearF a := ((Option.some.injEq _ _).mp hx).symm
        rw [hc, hclearSet τ] at hy
        cases hy
      · obtain ⟨b, hb, _, _, _, hmem⟩ := hcharR x c hxa hx
        obtain ⟨hy0, _⟩ := (hmem τ y).mp hy
        obtain ⟨d, hd, hdt⟩ := hinv.setType x b τ y hb hy0
        obtain ⟨d', hd', hdt'⟩ := hfwdR y d hd
        refine ⟨d', ?_, hdt'.trans hdt⟩
        rw [hfinalLook]
        exact hd'
    · intro x y a' b' hx hy
      rw [hfinalLook] at hx hy
      by_cases hxa : x = aid
      · rw [hxa, hfa] at hx
        have hca : a' = clearF a := ((Option.some.injEq _ _).mp hx).symm
        by_cases hya : y = aid
        · rw [hya, hfa] at hy
          have hcb : b' = clearF a := ((Option.some.injEq _ _).mp hy).symm
          constructor
          · intro hc
            rw [hca] at hc
            have hc' : y ∈ ([] : List Nat) := hclearSet _ ▸ hc
            cases hc'
          · intro hc
            rw [hcb] at hc
            have hc' : x ∈ ([] : List Nat) := hclearSet _ ▸ hc
            cases hc'
        · obtain ⟨b, hb, _, _, _, hmem⟩ := hcharR y b' hya hy
          constructor
          · intro hc
            rw [hca] at hc
            have hc' : y ∈ ([] : List Nat) := hclearSet _ ▸ hc
            cases hc'
          · intro hc
            rw [hca] at hc
            obtain ⟨_, hno⟩ :=
              (hmem (clearF a).asset_type_name x).mp hc
            exact absurd ⟨rfl, hxa⟩ hno
      · by_cases hya : y = aid
        · rw [hya, hfa] at hy
          have hcb : b' = clearF a := ((Option.some.injEq _ _).mp hy).symm
          obtain ⟨b, hb, _, _, _, hmem⟩ := hcharR x a' hxa hx
          constructor
          · intro hc
            rw [hcb] at hc
            obtain ⟨_, hno⟩ :=
              (hmem (clearF a).asset_type_name y).mp hc
            exact absurd ⟨rfl, hya⟩ hno
          · intro hc
            rw [hcb] at hc
            have hc' : x ∈ ([] : List Nat) := hclearSet _ ▸ hc
            cases hc' 
        · obtain ⟨bx, hbx, htx, _, _, hmemx⟩ := hcharR x a' hxa hx
          obtain ⟨by', hby, hty, _, _, hmemy⟩ := hcharR y b' hya hy
          rw [htx, hty, hmemx by'.asset_type_name y,
            hmemy bx.asset_type_name x]
          constructor
          · rintro ⟨hy0, _⟩
            exact ⟨(hinv.symm x y bx by' hbx hby).mp hy0,
              fun hcc => hxa hcc.2⟩
          · rintro ⟨hy0, _⟩
            exact ⟨(hinv.symm x y bx by' hbx hby).mpr hy0,
              fun hcc => hya hcc.2⟩
    · intro x c τ hx
      rw [hfinalLook] at hx
      by_cases hxa : x = aid
      · rw [hxa, hfa] at hx
        have hc : c = clearF a := ((Option.some.injEq _ _).mp hx).symm
        rw [hc, hclearSet τ]
        exact List.not_mem_nil _
      · obtain ⟨b, hb, _, _, _, hmem⟩ := hcharR x c hxa hx
        intro hself
        obtain ⟨hy0, _⟩ := (hmem τ x).mp hself
        exact hinv.noSelf x b τ hb hy0


theorem Inv_sampleAux (o : Oracle) : ∀ fuel step (m m' : Model)
    (st' : Nat), Model.sampleAux o fuel step m = some (m', st') → Inv m →
    Inv m' := by
  intro fuel
  induction fuel with
  | zero =>
    intro step m m' st' h
    cases h
  | succ fuel ih =>
    intro step m m' st' h hinv
    simp only [Model.sampleAux] at h
    by_cases hinc : 0 < m.incompletely_associated_assets.length
    · rw [dif_pos hinc] at h
      exact ih _ _ _ _ h (Inv_complete_associations o _ false _ m hinv)
    · rw [dif_neg hinc] at h
      cases h
      exact hinv

theorem Inv_sample (o : Oracle) (fuel step : Nat) {m m' : Model}
    {st' : Nat} (h : Model.sample o fuel step m = some (m', st'))
    (hinv : Inv m) : Inv m' := by
  unfold Model.sample at h
  cases hsel : m.select_initial_asset_type o step with
  | none => rw [hsel] at h; cases h
  | some t0 =>
    simp only [hsel] at h
    cases ha : m.add t0 (o.pds m.nextId) with
    | error e => rw [ha] at h; cases h
    | ok r =>
      rw [ha] at h
      obtain ⟨m1, aid⟩ := r
      have h' : Model.sampleAux o fuel
          (Model.complete_associations o aid false (step + 1) m1).2
          (Model.complete_associations o aid false (step + 1) m1).1
          = some (m', st') := h
      exact Inv_sampleAux o fuel _ _ m' st' h'
        (Inv_complete_associations o aid false (step + 1) m1
          (Inv_add hinv ha))

theorem Inv_foldl_complete (o : Oracle) (force : Bool) (L : List Nat) :
    ∀ m step, Inv m →
    Inv ((L.foldl (fun acc aid =>
      Model.complete_associations o aid force acc.2 acc.1) (m, step))).1
    := by
  induction L with
  | nil => exact fun m step h => h
  | cons aid L ih =>
    intro m step hinv
    rw [List.foldl_cons]
    exact ih _ _ (Inv_complete_associations o aid force step m hinv)

theorem Inv_foldl_remove (L : List Nat) : ∀ m, Inv m →
    Inv (L.foldl (fun acc aid => Model.remove acc aid) m) := by
  induction L with
  | nil => exact fun m h => h
  | cons aid L ih =>
    intro m hinv
    rw [List.foldl_cons]
    exact ih _ (Inv_remove hinv aid)

theorem Inv_repairPass (o : Oracle) (incons : List Nat) (step : Nat)
    (m : Model) (hinv : Inv m) :
    Inv (Model.repairPass o incons step m).1 := by
  unfold Model.repairPass
  exact Inv_foldl_remove _ _ (Inv_foldl_complete o true incons m step hinv)

theorem Inv_resolveAux (o : Oracle) : ∀ attempts step m, Inv m →
    Inv (Model.resolveAux o attempts step m).model := by
  intro attempts
  induction attempts with
  | zero =>
    intro step m hinv
    unfold Model.resolveAux
    by_cases h : m.check_consistency = []
    · rw [if_pos h]
      exact hinv
    · rw [if_neg h]
      exact Inv_repairPass o _ step m hinv
  | succ n ih =>
    intro step m hinv
    unfold Model.resolveAux
    by_cases h : m.check_consistency = []
    · rw [if_pos h]
      exact hinv
    · rw [if_neg h]
      exact ih _ _ (Inv_repairPass o _ step m hinv)

theorem Inv_resolve_inconsistency (o : Oracle) (attempts step : Nat)
    (m : Model) (hinv : Inv m) :
    Inv (Model.resolve_inconsistency o attempts step m).model :=
  Inv_resolveAux o attempts step m hinv

/-- Every model state reachable through the `Model` operations satisfies
the structural invariant. -/
theorem Reachable_Inv {m : Model} (hm : Reachable m) : Inv m := by
  induction hm with
  | init mm npds hmm => exact Inv_init mm npds hmm
  | add t pds hr ha ih => exact Inv_add ih ha
  | complete o sid force step hr ih =>
    exact Inv_complete_associations o sid force step _ ih
  | sample o fuel step hr hs ih => exact Inv_sample o fuel step hs ih
  | remove aid hr ih => exact Inv_remove ih aid
  | resolve o attempts step hr ih =>
    exact Inv_resolve_inconsistency o attempts step _ ih

/-! ## Claims C3 and C7 : symmetry and no self-association -/

/-- Claim C3.  In every model state reachable through the `Model`
operations (construction, add, complete_associations, sample, remove,
resolve_inconsistency), association is bidirectional: `B` lies in `A`'s
realized set for `B`'s type exactly when `A` lies in `B`'s realized set for
`A`'s type. -/
theorem reachable_symmetry {m : Model} (hm : Reachable m) (aid bid : Nat)
    (a b : Asset) (ha : m.lookupAsset aid = some a)
    (hb : m.lookupAsset bid = some b) :
    bid ∈ a.setFor b.asset_type_name ↔ aid ∈ b.setFor a.asset_type_name :=
  (Reachable_Inv hm).symm aid bid a b ha hb

/-- Claim C7.  In every reachable model state no asset is a member of its
own realized neighbour set, for any neighbour type — in particular for its
own type when same-type associations are allowed. -/
theorem reachable_no_self_association {m : Model} (hm : Reachable m)
    (aid : Nat) (a : Asset) (t : TypeName)
    (ha : m.lookupAsset aid = some a) : aid ∉ a.setFor t :=
  (Reachable_Inv hm).noSelf aid a t ha

theorem reachable_pairM4 : Reachable pairM4 := by
  have h0 : Reachable pairM0 :=
    Reachable.init mmPair _ ⟨by decide, by decide⟩
  have h1 : Reachable pairM1 :=
    @Reachable.add pairM0 pairM1 0 "A" (oracle0.pds 0) h0 (by rfl)
  have h2 : Reachable pairM2 :=
    @Reachable.add pairM1 pairM2 1 "B" (oracle0.pds 1) h1 (by rfl)
  have h3 : Reachable pairM3 :=
    @Reachable.add pairM2 pairM3 2 "B" (oracle0.pds 2) h2 (by rfl)
  exact Reachable.complete oracle0 0 false 0 h3

/-- Witness for C3: in the reachable model `pairM4`, asset 0 (type `A`) and
asset 1 (type `B`) are symmetric neighbours. -/
theorem reachable_symmetry_witness :
    (1 ∈ ((pairM4.lookupAsset 0).getD (Asset.make "" "" [])).setFor
        ((pairM4.lookupAsset 1).getD
          (Asset.make "" "" [])).asset_type_name) ↔
    (0 ∈ ((pairM4.lookupAsset 1).getD (Asset.make "" "" [])).setFor
        ((pairM4.lookupAsset 0).getD
          (Asset.make "" "" [])).asset_type_name) :=
  reachable_symmetry reachable_pairM4 0 1 _ _ (by decide) (by decide)

/-- Witness for C7: in the reachable model `pairM4`, asset 0 is not its own
neighbour. -/
theorem reachable_no_self_association_witness :
    0 ∉ ((pairM4.lookupAsset 0).getD (Asset.make "" "" [])).setFor "B" :=
  reachable_no_self_association reachable_pairM4 0
    ((pairM4.lookupAsset 0).getD (Asset.make "" "" [])) "B" (by decide)

/-! ## Claim C10 : Asset.associate -/

/-- Claim C10.  `Asset.associate` on the heap: when the calling asset has no
realized-set entry for the target's type the call raises `KeyError` before
either asset is mutated (the embedding returns the error without producing
a model); when the entry exists the call succeeds and adds each asset to
the other's realized set for the appropriate type. -/
theorem associate_keyerror_or_both_sides (m : Model) (sid tid : Nat)
    (s t : Asset) (hs : m.lookupAsset sid = some s)
    (ht : m.lookupAsset tid = some t) :
    (alook s.associated_assets t.asset_type_name = none →
      m.associate sid tid = Except.error "KeyError: associated_assets") ∧
    (∀ s0, alook s.associated_assets t.asset_type_name = some s0 →
      ∃ m', m.associate sid tid = Except.ok m' ∧
        ∃ s' t', m'.lookupAsset sid = some s' ∧
          m'.lookupAsset tid = some t' ∧
          tid ∈ s'.setFor t.asset_type_name ∧
          sid ∈ t'.setFor s.asset_type_name) := by
  constructor
  · intro hk
    simp only [Model.associate, hs, ht, hk]
  · intro s0 hk
    simp only [Model.associate, hs, ht, hk]
    refine ⟨_, rfl, ?_⟩
    by_cases hst : sid = tid
    · subst hst
      have hts : t = s := by
        rw [hs] at ht
        exact (Option.some.injEq t s).mp ht.symm
      subst hts
      refine ⟨_, _, lookup_double_modify_self m sid _ _ t hs,
        lookup_double_modify_self m sid _ _ t hs, ?_, ?_⟩
      · exact mem_aupd_ensureKey _ _ _
      · exact mem_aupd_ensureKey _ _ _
    · refine ⟨_, _, lookup_modify_pair_first m sid tid _ _ s hst hs,
        lookup_modify_pair_second m sid tid _ _ t
          (fun h => hst h.symm) ht, ?_, ?_⟩
      · show tid ∈ (alook (aupd s.associated_assets t.asset_type_name
            (insertNew tid)) t.asset_type_name).getD []
        rw [alook_aupd_self, hk]
        simp [mem_insertNew]
      · exact mem_aupd_ensureKey _ _ _

/-- Witness for C10 in the concrete three-asset model: associating asset 0
(type `A`, which declares neighbour type `B`) with asset 2 (type `B`)
succeeds and adds both sides. -/
theorem associate_keyerror_or_both_sides_witness :
    ∃ m', pairM3.associate 0 2 = Except.ok m' ∧
      ∃ s' t', m'.lookupAsset 0 = some s' ∧ m'.lookupAsset 2 = some t' ∧
        2 ∈ s'.setFor pairAssetB.asset_type_name ∧
        0 ∈ t'.setFor pairAssetA.asset_type_name := by
  exact (associate_keyerror_or_both_sides pairM3 0 2 pairAssetA pairAssetB
    (by decide) (by decide)).2 [] (by decide)

/-! ## Claim C8 : Model.add -/

/-- Claim C8.  On a well-formed model, `Model.add` fails exactly on asset
types outside the metamodel — producing the descriptive `ValueError` text
and no model, so nothing is mutated — and otherwise returns a fresh asset
of the requested type that has been inserted into the type's collection. -/
theorem add_error_iff (m : Model) (asset_type : TypeName)
    (pds : TypeName → ProbabilityDistribution) (hinv : Inv m) :
    (alook m.metamodel asset_type = none →
      m.add asset_type pds =
        Except.error ("Unknown asset type: " ++ asset_type)) ∧
    (∀ spec, alook m.metamodel asset_type = some spec →
      ∃ m' aid a, m.add asset_type pds = Except.ok (m', aid) ∧
        m'.lookupAsset aid = some a ∧ a.asset_type_name = asset_type ∧
        ∃ l, alook m'.assets asset_type = some l ∧ aid ∈ l) := by
  constructor
  · intro h
    simp only [Model.add, h]
  · intro spec hspec
    simp only [Model.add, hspec]
    refine ⟨_, m.nextId,
      Asset.make (spec.abbreviation ++
          Nat.repr ((alook m.assets asset_type).getD []).length) asset_type
        (spec.associated_assets.map (fun p => (p.1, pds p.1))),
      rfl, ?_, rfl, ?_⟩
    · show alook (m.heap ++ [(m.nextId, _)]) m.nextId = some _
      rw [alook_append]
      have hnone : alook m.heap m.nextId = none := by
        rw [alook_eq_none_iff, hinv.heapIds]
        simp
      rw [hnone]
      simp [alook]
    · have hkey : asset_type ∈ m.assets.map (fun p => p.1) := by
        rw [hinv.assetsKeys]
        exact alook_mem_keys hspec
      obtain ⟨l0, hl0⟩ := exists_alook_of_mem_keys hkey
      refine ⟨insertNew m.nextId l0, ?_, ?_⟩
      · show alook (aupd m.assets asset_type (insertNew m.nextId))
            asset_type = _
        rw [alook_aupd_self, hl0]
        rfl
      · rw [mem_insertNew]
        exact Or.inl rfl

/-- Witness for C8 on the fresh single-type model. -/
theorem add_error_iff_witness :
    ∃ m' aid a, soloM0.add "A" (oracle0.pds 0) = Except.ok (m', aid) ∧
      m'.lookupAsset aid = some a ∧ a.asset_type_name = "A" ∧
      ∃ l, alook m'.assets "A" = some l ∧ aid ∈ l := by
  exact (add_error_iff soloM0 "A" (oracle0.pds 0)
    (Inv_init mmSolo (fun _ => { value := 5, low := 5, high := 5 })
      ⟨by decide, by decide⟩)).2
    { abbreviation := "A", nSpec := none, associated_assets := [] }
    (by decide)

/-! ## Claim C1 : the force flag and the inner loop condition -/

/-- Claim C1, counterexample.  In `pairM4`, asset 0 has realized one `B`
neighbour, its target `value` is 1 and its band `high` is 3, so
`accepts("B", force := true)` holds and an unassociated acceptable target
(asset 2) is available; yet `complete_associations(0, force := true)`
changes nothing: the inner loop tests `accepts(target_asset_type)` without
the force flag, so forced repair does not attempt to reach `target.high`. -/
theorem force_loop_counterexample :
    ((pairM4.lookupAsset 0).getD (Asset.make "" "" [])).accepts "B" true
      = true ∧
    pairM4.available_targets 0 "B" true = [2] ∧
    (Model.complete_associations oracle0 0 true 10 pairM4).1 = pairM4 := by
  refine ⟨by decide, by decide, by decide⟩

/-- Claim C1, amended.  The inner loop of `complete_associations` runs while
`accepts(target_asset_type)` holds with the default `force_accept = false`,
i.e. while the realized count is below `target.value`, whatever the force
flag: as soon as the source no longer accepts in normal mode the loop body
never executes, even when the source still accepts in force mode. -/
theorem force_loop_guard (o : Oracle) (sid : Nat) (t : TypeName)
    (force : Bool) (step : Nat) (m : Model) (s : Asset)
    (hs : m.lookupAsset sid = some s)
    (hguard : s.accepts t false = false) :
    Model.completeType o sid t force step m = (m, step) := by
  unfold Model.completeType
  simp [Model.completeTypeAux, hs, hguard]

/-- Witness for C1's amended theorem: asset 0 of `pairM4` no longer accepts
`B` in normal mode (count 1 = value 1), so the force-mode loop for `B` exits
at once even though `accepts("B", true)` holds. -/
theorem force_loop_guard_witness :
    Model.completeType oracle0 0 "B" true 7 pairM4 = (pairM4, 7) :=
  force_loop_guard oracle0 0 "B" true 7 pairM4
    ((pairM4.lookupAsset 0).getD (Asset.make "" "" [])) (by decide)
    (by decide)

/-! ## Claim C2 : population caps after sample() -/

/-- Claim C2, counterexample.  With a single capped type whose committed cap
`value` is 0, `sample()` still creates the one initial asset (step 1 adds
without consulting the cap), so the bound `|assets[type]| ≤ cap.value`
fails for the initial asset type — which is not an asset created by
reciprocal demand. -/
theorem sample_cap_counterexample :
    capM0.select_initial_asset_type oracle0 0 = some "A" ∧
    ((alook capM0.metamodel "A").getD
        { abbreviation := "", nSpec := none,
          associated_assets := [] }).nSpec.isSome = true ∧
    capM0.capValue "A" = 0 ∧
    (Model.sample oracle0 5 0 capM0).isSome = true ∧
    Model.countLive ((Model.sample oracle0 5 0 capM0).getD (capM0, 0)).1 "A"
      = 1 := by
  refine ⟨by decide, by decide, by decide, by decide, by decide⟩

/-! ## Claim C9 : asset-name uniqueness -/

/-- Claim C2, amended machinery: growth bounds for the generation loop. -/

theorem countLive_eq_of_assets {m m' : Model} (h : m'.assets = m.assets)
    (t : TypeName) : Model.countLive m' t = Model.countLive m t := by
  unfold Model.countLive
  rw [h]

theorem capValue_eq_of_n_assets {m m' : Model}
    (h : m'.n_assets = m.n_assets) (t : TypeName) :
    m'.capValue t = m.capValue t := by
  unfold Model.capValue
  rw [h]

theorem add_static {m m' : Model} {ty : TypeName} {aid : Nat}
    {pds : TypeName → ProbabilityDistribution}
    (h : m.add ty pds = Except.ok (m', aid)) :
    m'.n_assets = m.n_assets ∧ m'.metamodel = m.metamodel ∧
    m'.nextId = m.nextId + 1 := by
  obtain ⟨spec, hspec, haid, hm'⟩ := add_ok_destruct h
  rw [hm']
  exact ⟨rfl, rfl, rfl⟩

theorem add_countLive_self {m m' : Model} {ty : TypeName} {aid : Nat}
    {pds : TypeName → ProbabilityDistribution}
    (h : m.add ty pds = Except.ok (m', aid)) :
    Model.countLive m' ty ≤ Model.countLive m ty + 1 := by
  obtain ⟨spec, hspec, haid, hm'⟩ := add_ok_destruct h
  rw [hm']
  show ((alook (aupd m.assets ty (insertNew m.nextId)) ty).getD []).length
    ≤ _
  rw [alook_aupd_self]
  cases hl : alook m.assets ty with
  | none => exact Nat.zero_le _
  | some l0 =>
    show (insertNew m.nextId l0).length ≤ Model.countLive m ty + 1
    unfold Model.countLive
    rw [hl]
    exact length_insertNew_le m.nextId l0

theorem add_countLive_ne {m m' : Model} {ty : TypeName} {aid : Nat}
    {pds : TypeName → ProbabilityDistribution}
    (h : m.add ty pds = Except.ok (m', aid)) (t' : TypeName)
    (hne : t' ≠ ty) : Model.countLive m' t' = Model.countLive m t' := by
  obtain ⟨spec, hspec, haid, hm'⟩ := add_ok_destruct h
  rw [hm']
  show ((alook (aupd m.assets ty (insertNew m.nextId)) t').getD []).length
    = _
  rw [alook_aupd_ne _ _ _ _ hne]
  rfl

/-- Through the inner association loop, the population distributions are
untouched and each live count stays below `max` of its starting value and
the population cap target: every `add` on this path is guarded by
`len(assets[t]) < n_assets[t].value`. -/
theorem completeTypeAux_growth (o : Oracle) (sid : Nat) (t : TypeName)
    (force : Bool) : ∀ fuel step m,
    (Model.completeTypeAux o sid t force fuel step m).1.n_assets
      = m.n_assets ∧
    (Model.completeTypeAux o sid t force fuel step m).1.metamodel
      = m.metamodel ∧
    ∀ t', Model.countLive
        (Model.completeTypeAux o sid t force fuel step m).1 t' ≤
      max (Model.countLive m t') (m.capValue t') := by
  intro fuel
  induction fuel with
  | zero => exact fun step m => ⟨rfl, rfl, fun t' => le_max_left _ _⟩
  | succ fuel ih =>
    intro step m
    simp only [Model.completeTypeAux]
    cases hs : m.lookupAsset sid with
    | none => exact ⟨rfl, rfl, fun t' => le_max_left _ _⟩
    | some s =>
      by_cases hacc : s.accepts t false
      · simp only [hacc, if_true]
        rcases pickTarget_cases o sid t force step m with hp
          | ⟨tid, hmem, hp⟩ | ⟨hcap, hf, m1, aid, ha, hp⟩
        · simp only [hp]
          exact ⟨by trivial, by trivial, fun t' => le_max_left _ _⟩
        · simp only [hp]
          cases hassoc : m.associate sid tid with
          | ok m'' =>
            simp only [hassoc]
            obtain ⟨f1, f2, f3, f4, f5⟩ := associate_frame hassoc
            obtain ⟨g1, g2, g3⟩ := ih (step + 1) m''
            refine ⟨g1.trans f3, g2.trans f2, fun t' => ?_⟩
            have hb := g3 t'
            rw [countLive_eq_of_assets f1, capValue_eq_of_n_assets f3] at hb
            exact hb
          | error e =>
            simp only [hassoc]
            exact ⟨by trivial, by trivial, fun t' => le_max_left _ _⟩
        · simp only [hp]
          obtain ⟨ha1, ha2, ha3⟩ := add_static ha
          cases hassoc : m1.associate sid aid with
          | ok m'' =>
            simp only [hassoc]
            obtain ⟨f1, f2, f3, f4, f5⟩ := associate_frame hassoc
            obtain ⟨g1, g2, g3⟩ := ih (step + 1) m''
            refine ⟨(g1.trans f3).trans ha1, (g2.trans f2).trans ha2,
              fun t' => ?_⟩
            have hb := g3 t'
            rw [countLive_eq_of_assets f1, capValue_eq_of_n_assets f3,
              capValue_eq_of_n_assets ha1] at hb
            refine le_trans hb (max_le ?_ (le_max_right _ _))
            by_cases ht' : t' = t
            · subst ht'
              have := le_trans (add_countLive_self ha)
                (Nat.succ_le_of_lt hcap)
              exact le_trans this (le_max_right _ _)
            · rw [add_countLive_ne ha t' ht']
              exact le_max_left _ _
          | error e =>
            simp only [hassoc]
            refine ⟨ha1, ha2, fun t' => ?_⟩
            by_cases ht' : t' = t
            · subst ht'
              exact le_trans (le_trans (add_countLive_self ha)
                (Nat.succ_le_of_lt hcap)) (le_max_right _ _)
            · rw [add_countLive_ne ha t' ht']
              exact le_max_left _ _
      · simp only [hacc, if_false]
        exact ⟨rfl, rfl, fun t' => le_max_left _ _⟩

theorem completeType_growth (o : Oracle) (sid : Nat) (t : TypeName)
    (force : Bool) (step : Nat) (m : Model) :
    (Model.completeType o sid t force step m).1.n_assets = m.n_assets ∧
    ∀ t', Model.countLive (Model.completeType o sid t force step m).1 t' ≤
      max (Model.countLive m t') (m.capValue t') := by
  unfold Model.completeType
  obtain ⟨g1, g2, g3⟩ := completeTypeAux_growth o sid t force
    (match m.lookupAsset sid with
     | some s => ((alook s.n_associated_assets t).getD
         { value := 0, low := 0, high := 0 }).value + 1
     | none => 1) step m
  exact ⟨g1, g3⟩

theorem foldl_completeType_growth (o : Oracle) (sid : Nat) (force : Bool)
    (ts : List TypeName) : ∀ (m : Model) (step : Nat),
    ((ts.foldl (fun acc t => Model.completeType o sid t force acc.2 acc.1)
        (m, step))).1.n_assets = m.n_assets ∧
    ∀ t', Model.countLive
        ((ts.foldl (fun acc t =>
          Model.completeType o sid t force acc.2 acc.1) (m, step))).1 t' ≤
      max (Model.countLive m t') (m.capValue t') := by
  induction ts with
  | nil => exact fun m step => ⟨rfl, fun t' => le_max_left _ _⟩
  | cons t ts ih =>
    intro m step
    rw [List.foldl_cons]
    obtain ⟨h1, h2⟩ := completeType_growth o sid t force step m
    obtain ⟨g1, g2⟩ := ih (Model.completeType o sid t force step m).1
      (Model.completeType o sid t force step m).2
    refine ⟨g1.trans h1, fun t' => ?_⟩
    have hb := g2 t'
    rw [capValue_eq_of_n_assets h1] at hb
    exact le_trans hb (max_le (h2 t') (le_max_right _ _))

theorem complete_associations_growth (o : Oracle) (sid : Nat) (force : Bool)
    (step : Nat) (m : Model) :
    (Model.complete_associations o sid force step m).1.n_assets
      = m.n_assets ∧
    ∀ t', Model.countLive
        (Model.complete_associations o sid force step m).1 t' ≤
      max (Model.countLive m t') (m.capValue t') := by
  unfold Model.complete_associations
  cases hs : m.lookupAsset sid with
  | none => exact ⟨rfl, fun t' => le_max_left _ _⟩
  | some s =>
    obtain ⟨g1, g2⟩ := foldl_completeType_growth o sid force
      (s.n_associated_assets.map (fun p => p.1)) m step
    refine ⟨g1, fun t' => ?_⟩
    have := g2 t'
    rw [← countLive_eq_of_assets (heapModify_assets _ sid
      (fun a => { a with generation_completed := true }))] at this
    exact this

theorem sampleAux_growth (o : Oracle) : ∀ fuel step (m m' : Model)
    (st' : Nat), Model.sampleAux o fuel step m = some (m', st') →
    m'.n_assets = m.n_assets ∧
    ∀ t', Model.countLive m' t' ≤
      max (Model.countLive m t') (m.capValue t') := by
  intro fuel
  induction fuel with
  | zero =>
    intro step m m' st' h
    cases h
  | succ fuel ih =>
    intro step m m' st' h
    simp only [Model.sampleAux] at h
    by_cases hinc : 0 < m.incompletely_associated_assets.length
    · rw [dif_pos hinc] at h
      obtain ⟨c1, c2⟩ := complete_associations_growth o
        (m.incompletely_associated_assets.get
          ⟨o.choice step % m.incompletely_associated_assets.length,
           Nat.mod_lt _ hinc⟩) false (step + 1) m
      obtain ⟨g1, g2⟩ := ih _ _ m' st' h
      refine ⟨g1.trans c1, fun t' => ?_⟩
      have hb := g2 t'
      rw [capValue_eq_of_n_assets c1] at hb
      exact le_trans hb (max_le (c2 t') (le_max_right _ _))
    · rw [dif_neg hinc] at h
      cases h
      exact ⟨rfl, fun t' => le_max_left _ _⟩

/-- Claim C2, amended.  After `sample()` (before repair): every asset type's
live count is at most `max(starting count + 1, cap.value)`; for every type
other than the randomly selected initial one, the stronger bound
`max(starting count, cap.value)` holds — on a fresh model this means every
non-initial capped type satisfies `|assets[type]| ≤ cap.value`, while the
initial type can reach `max(1, cap.value)` because the first `add` is not
cap-guarded. -/
theorem sample_population_bound (o : Oracle) (fuel step : Nat)
    (m m' : Model) (st' : Nat)
    (h : Model.sample o fuel step m = some (m', st')) :
    (∀ t, Model.countLive m' t ≤
      max (Model.countLive m t + 1) (m.capValue t)) ∧
    (∀ t, m.select_initial_asset_type o step ≠ some t →
      Model.countLive m' t ≤ max (Model.countLive m t) (m.capValue t)) := by
  unfold Model.sample at h
  cases hsel : m.select_initial_asset_type o step with
  | none => rw [hsel] at h; cases h
  | some t0 =>
    simp only [hsel] at h
    cases ha : m.add t0 (o.pds m.nextId) with
    | error e => rw [ha] at h; cases h
    | ok r =>
      rw [ha] at h
      obtain ⟨m1, aid⟩ := r
      have h' : Model.sampleAux o fuel
          (Model.complete_associations o aid false (step + 1) m1).2
          (Model.complete_associations o aid false (step + 1) m1).1
          = some (m', st') := h
      obtain ⟨c1, c2⟩ := complete_associations_growth o aid false
        (step + 1) m1
      obtain ⟨g1, g2⟩ := sampleAux_growth o fuel _ _ m' st' h'
      obtain ⟨a1, a2, a3⟩ := add_static ha
      have mid_le : ∀ t, Model.countLive m' t ≤
          max (Model.countLive m1 t) (m.capValue t) := by
        intro t
        have hb := g2 t
        rw [capValue_eq_of_n_assets c1, capValue_eq_of_n_assets a1] at hb
        have hc := c2 t
        rw [capValue_eq_of_n_assets a1] at hc
        exact le_trans hb (max_le hc (le_max_right _ _))
      constructor
      · intro t
        refine le_trans (mid_le t) (max_le ?_ (le_max_right _ _))
        by_cases ht : t = t0
        · subst ht
          exact le_trans (add_countLive_self ha) (le_max_left _ _)
        · rw [add_countLive_ne ha t ht]
          exact le_trans (Nat.le_succ _) (le_max_left _ _)
      · intro t hne
        have ht : t ≠ t0 := fun hh => hne (by rw [hh])
        refine le_trans (mid_le t) (max_le ?_ (le_max_right _ _))
        rw [add_countLive_ne ha t ht]
        exact le_max_left _ _

/-- Witness for C2's amended theorem on the zero-cap model: the single `A`
asset respects `|assets[A]| ≤ max(0 + 1, 0)`. -/
theorem sample_population_bound_witness :
    Model.countLive ((Model.sample oracle0 5 0 capM0).getD (capM0, 0)).1 "A"
      ≤ max (Model.countLive capM0 "A" + 1) (capM0.capValue "A") := by
  have h : Model.sample oracle0 5 0 capM0 =
      some (((Model.sample oracle0 5 0 capM0).getD (capM0, 0)).1,
            ((Model.sample oracle0 5 0 capM0).getD (capM0, 0)).2) := by
    decide
  exact (sample_population_bound oracle0 5 0 capM0 _ _ h).1 "A"

/-- Claim C9, counterexample.  After `add, add, remove(first), add` on a
single type with abbreviation `A`, the live collection is `[1, 2]` and both
live assets are named `A1`: `add` derives names from the current count, so
a removal lets a later `add` reuse the name of a live asset. -/
theorem name_collision_counterexample :
    alook soloM4.assets "A" = some [1, 2] ∧
    ((soloM4.lookupAsset 1).getD (Asset.make "" "" [])).name = "A1" ∧
    ((soloM4.lookupAsset 2).getD (Asset.make "" "" [])).name = "A1" := by
  refine ⟨by decide, by decide, by decide⟩

/-! ### `Nat.repr` is injective (via the decimal-digit value function) -/

theorem toDigitsCore_append (b : Nat) : ∀ fuel n ds,
    Nat.toDigitsCore b fuel n ds = Nat.toDigitsCore b fuel n [] ++ ds := by
  intro fuel
  induction fuel with
  | zero => intro n ds; rfl
  | succ fuel ih =>
    intro n ds
    simp only [Nat.toDigitsCore]
    by_cases h : n / b = 0
    · rw [if_pos h, if_pos h]
      rfl
    · rw [if_neg h, if_neg h]
      rw [ih (n / b) (Nat.digitChar (n % b) :: ds),
        ih (n / b) (Nat.digitChar (n % b) :: []),
        List.append_assoc]
      rfl

theorem digitChar_val : ∀ k, k < 10 → (Nat.digitChar k).toNat - 48 = k := by
  decide

theorem valDigits_toDigitsCore : ∀ fuel n, n < fuel →
    valDigits (Nat.toDigitsCore 10 fuel n []) = n := by
  intro fuel
  induction fuel with
  | zero => intro n h; exact absurd h (Nat.not_lt_zero n)
  | succ fuel ih =>
    intro n hn
    simp only [Nat.toDigitsCore]
    by_cases h0 : n / 10 = 0
    · rw [if_pos h0]
      have hlt : n < 10 := by omega
      show 10 * 0 + ((Nat.digitChar (n % 10)).toNat - 48) = n
      rw [Nat.mod_eq_of_lt hlt, digitChar_val n hlt]
      omega
    · rw [if_neg h0]
      rw [toDigitsCore_append 10 fuel (n / 10) [Nat.digitChar (n % 10)]]
      unfold valDigits
      rw [List.foldl_append]
      have hdiv : n / 10 < fuel := by omega
      have hIH := ih (n / 10) hdiv
      unfold valDigits at hIH
      rw [hIH]
      show 10 * (n / 10) + ((Nat.digitChar (n % 10)).toNat - 48) = n
      rw [digitChar_val (n % 10) (by omega)]
      omega

theorem valDigits_repr (n : Nat) : valDigits (Nat.repr n).data = n :=
  valDigits_toDigitsCore (n + 1) n (Nat.lt_succ_self n)

/-! ### The names invariant holds in every add-only run -/

theorem NamesInv_init (mm : Metamodel)
    (npds : TypeName → ProbabilityDistribution) :
    NamesInv (Model.init mm npds) := by
  constructor
  · intro aid a ha
    have ha' : (none : Option Asset) = some a := ha
    cases ha'
  · intro t l hl i hi a ha
    have hl' : alook (mm.map (fun p => (p.1, ([] : List Nat)))) t = some l
      := hl
    rcases alook_map_const mm ([] : List Nat) t with hc | hc
    · rw [hc] at hl'
      cases hl'
    · rw [hc] at hl'
      have hle : l = [] := ((Option.some.injEq _ _).mp hl').symm
      subst hle
      exact absurd hi (Nat.not_lt_zero i)

theorem NamesInv_add {m m' : Model} {ty : TypeName} {aid : Nat}
    {pds : TypeName → ProbabilityDistribution} (hinv : Inv m)
    (hni : NamesInv m) (h : m.add ty pds = Except.ok (m', aid)) :
    NamesInv m' := by
  obtain ⟨spec, hspec, haid, hm'⟩ := add_ok_destruct h
  subst haid
  subst hm'
  set n := m.nextId with hn
  obtain ⟨l0, hl0⟩ := exists_alook_of_mem_keys
    (l := m.assets) (k := ty)
    (by rw [hinv.assetsKeys]; exact alook_mem_keys hspec)
  have hgetD : (alook m.assets ty).getD [] = l0 := by rw [hl0]; rfl
  set A := Asset.make (spec.abbreviation ++
      Nat.repr ((alook m.assets ty).getD []).length) ty
    (spec.associated_assets.map (fun p => (p.1, pds p.1))) with hA
  have hAty : A.asset_type_name = ty := rfl
  have hAname : A.name = spec.abbreviation ++ Nat.repr l0.length := by
    rw [hA]
    show spec.abbreviation ++
      Nat.repr ((alook m.assets ty).getD []).length = _
    rw [hgetD]
  have hfresh : alook m.heap n = none := hinv.fresh_lookup_none
  have hnotin : n ∉ l0 := by
    intro hmem
    obtain ⟨b, hb, _⟩ := hinv.poolType ty l0 n hl0 hmem
    have hb' : alook m.heap n = some b := hb
    rw [hfresh] at hb'
    cases hb'
  have hins : insertNew n l0 = l0 ++ [n] := by
    simp [insertNew, hnotin]
  have hlookA : alook (m.heap ++ [(n, A)]) n = some A := by
    rw [alook_append_of_none _ hfresh]
    simp [alook]
  have hlookInv : ∀ x b, alook (m.heap ++ [(n, A)]) x = some b →
      (x = n ∧ b = A) ∨ alook m.heap x = some b := by
    intro x b hb
    cases hx : alook m.heap x with
    | some v =>
      right
      rw [alook_append_left _ hx] at hb
      exact hb
    | none =>
      left
      rw [alook_append_of_none _ hx] at hb
      simp only [alook] at hb
      by_cases hxn : n = x
      · subst hxn
        rw [if_pos rfl] at hb
        exact ⟨rfl, ((Option.some.injEq _ _).mp hb).symm⟩
      · rw [if_neg hxn] at hb
        cases hb
  constructor
  · intro x a hx
    have hx' : alook (m.heap ++ [(n, A)]) x = some a := hx
    rcases hlookInv x a hx' with ⟨hxn, hxA⟩ | hold
    · subst hxn
      subst hxA
      refine ⟨insertNew n l0, ?_, mem_insertNew.mpr (Or.inl rfl)⟩
      show alook (aupd m.assets ty (insertNew n)) A.asset_type_name
        = some (insertNew n l0)
      rw [hAty, alook_aupd_self, hl0]
      rfl
    · obtain ⟨l, hl, hmem⟩ := hni.complete x a hold
      by_cases hta : a.asset_type_name = ty
      · rw [hta] at hl
        rw [hl0] at hl
        have hll0 : l = l0 := ((Option.some.injEq _ _).mp hl).symm
        subst hll0
        refine ⟨insertNew n l, ?_, mem_insertNew.mpr (Or.inr hmem)⟩
        show alook (aupd m.assets ty (insertNew n)) a.asset_type_name
          = some (insertNew n l)
        rw [hta, alook_aupd_self, hl0]
        rfl
      · refine ⟨l, ?_, hmem⟩
        show alook (aupd m.assets ty (insertNew n)) a.asset_type_name
          = some l
        rw [alook_aupd_ne _ _ _ _ hta]
        exact hl
  · intro t l' hl'0 i hi a ha
    have hl'1 : alook (aupd m.assets ty (insertNew n)) t = some l' := hl'0
    have ha' : alook (m.heap ++ [(n, A)]) l'[i] = some a := ha
    by_cases ht : t = ty
    · subst ht
      rw [alook_aupd_self, hl0] at hl'1
      have hl'2 : some (insertNew n l0) = some l' := hl'1
      have hl'eq : l' = insertNew n l0 :=
        ((Option.some.injEq _ _).mp hl'2).symm
      subst hl'eq
      simp only [hins] at hi ha'
      rcases Nat.lt_or_ge i l0.length with hilt | hge
      · have hgl : (l0 ++ [n])[i] = l0[i] :=
          List.getElem_append_left hilt
        rw [hgl] at ha'
        have hmem0 : l0[i] ∈ l0 := List.getElem_mem hilt
        obtain ⟨b, hb, _⟩ := hinv.poolType t l0 _ hl0 hmem0
        have hb' : alook m.heap l0[i] = some b := hb
        rw [alook_append_left _ hb'] at ha'
        have hab : b = a := (Option.some.injEq _ _).mp ha'
        obtain ⟨spec2, hspec2, hname2⟩ := hni.named t l0 hl0 i hilt b hb
        refine ⟨spec2, ?_, ?_⟩
        · show alook m.metamodel t = some spec2
          exact hspec2
        · rw [← hab]
          exact hname2
      · have hlen : i < l0.length + 1 := by
          have := hi
          simp [List.length_append] at this
          omega
        have hieq : i = l0.length := by omega
        have hgl : (l0 ++ [n])[i] = n :=
          List.getElem_concat_length l0 n i hieq _
        rw [hgl] at ha'
        rw [hlookA] at ha'
        have haA : A = a := (Option.some.injEq _ _).mp ha'
        refine ⟨spec, ?_, ?_⟩
        · show alook m.metamodel t = some spec
          exact hspec
        · rw [← haA, hieq]
          exact hAname
    · rw [alook_aupd_ne _ _ _ _ ht] at hl'1
      have hmem0 : l'[i] ∈ l' := List.getElem_mem hi
      obtain ⟨b, hb, _⟩ := hinv.poolType t l' _ hl'1 hmem0
      rw [alook_append_left _ hb] at ha'
      have hab : b = a := (Option.some.injEq _ _).mp ha'
      obtain ⟨spec2, hspec2, hname2⟩ := hni.named t l' hl'1 i hi b hb
      refine ⟨spec2, ?_, ?_⟩
      · show alook m.metamodel t = some spec2
        exact hspec2
      · rw [← hab]
        exact hname2

theorem AddReachable_Inv {m : Model} (hm : AddReachable m) : Inv m := by
  induction hm with
  | init mm npds hmm => exact Inv_init mm npds hmm
  | add t pds hr ha ih => exact Inv_add ih ha

theorem AddReachable_NamesInv {m : Model} (hm : AddReachable m) :
    NamesInv m := by
  induction hm with
  | init mm npds hmm => exact NamesInv_init mm npds
  | add t pds hr ha ih =>
    exact NamesInv_add (AddReachable_Inv hr) ih ha

/-- Claim C9 (amended part): in every model state reached by `add`
operations alone — no removal — any two distinct live assets of the same
type carry distinct names, because the `i`-th addition of a type is named
`abbreviation ++ str(i)` and decimal rendering is injective.  (After a
removal the claim fails: see the name-collision counterexample.) -/
theorem add_only_names_unique {m : Model} (hm : AddReachable m)
    (aid bid : Nat) (a b : Asset) (ha : m.lookupAsset aid = some a)
    (hb : m.lookupAsset bid = some b) (hne : aid ≠ bid)
    (ht : a.asset_type_name = b.asset_type_name) : a.name ≠ b.name := by
  intro hname
  have hni := AddReachable_NamesInv hm
  obtain ⟨l, hl, hmema⟩ := hni.complete aid a ha
  obtain ⟨l', hl', hmemb⟩ := hni.complete bid b hb
  rw [ht, hl'] at hl
  have hll : l = l' := ((Option.some.injEq _ _).mp hl).symm
  subst hll
  obtain ⟨i, hi, hgi⟩ := List.mem_iff_getElem.mp hmema
  obtain ⟨j, hj, hgj⟩ := List.mem_iff_getElem.mp hmemb
  obtain ⟨speca, hspeca, hna⟩ := hni.named b.asset_type_name l hl' i hi a
    (by rw [hgi]; exact ha)
  obtain ⟨specb, hspecb, hnb⟩ := hni.named b.asset_type_name l hl' j hj b
    (by rw [hgj]; exact hb)
  have hsp : speca = specb := by
    rw [hspecb] at hspeca
    exact ((Option.some.injEq _ _).mp hspeca).symm
  rw [hna, hnb, hsp] at hname
  have hdata : (Nat.repr i).data = (Nat.repr j).data := by
    have h1 := congrArg String.data hname
    rw [String.data_append, String.data_append] at h1
    exact List.append_cancel_left h1
  have hij : i = j := by
    have h2 := congrArg valDigits hdata
    rwa [valDigits_repr, valDigits_repr] at h2
  subst hij
  exact hne (hgi.symm.trans hgj)

theorem addReachable_soloM2 : AddReachable soloM2 := by
  have h0 : AddReachable soloM0 :=
    AddReachable.init mmSolo _ ⟨by decide, by decide⟩
  have h1 : AddReachable soloM1 :=
    @AddReachable.add soloM0 soloM1 0 "A" (oracle0.pds 0) h0 (by rfl)
  exact @AddReachable.add soloM1 soloM2 1 "A" (oracle0.pds 1) h1 (by rfl)

/-- Witness for the C9 amendment: in the add-only model `soloM2` the two
live assets of type `A` carry the distinct names `A0` and `A1`. -/
theorem add_only_names_unique_witness :
    ((soloM2.lookupAsset 0).getD (Asset.make "" "" [])).name ≠
    ((soloM2.lookupAsset 1).getD (Asset.make "" "" [])).name :=
  add_only_names_unique addReachable_soloM2 0 1
    ((soloM2.lookupAsset 0).getD (Asset.make "" "" []))
    ((soloM2.lookupAsset 1).getD (Asset.make "" "" []))
    (by decide) (by decide) (by decide) (by decide)

end MalSampler
